import Mathlib

/-!
# Verification of the multi-strategy RAG retrieval core (`src/app/lib/rag.ts`)

This file gives a shallow embedding of the retrieval engine of the
repository: document ingestion (`addDocument`), multi-vector search
(`searchDocuments`), key-term extraction (`extractKeyTerms`) and query
expansion (`generateQuestionVariations`).

External collaborators (the embedding provider, the vector store, and the
text splitter from `@langchain/textsplitters`) are modelled as an
environment of oracle functions.  A thrown JS exception is modelled as
`Except.error`; a supabase call that reports an error object is likewise
modelled as `Except.error` (for `rpc`/`select`) or `Option.some` of the
error message (for `insert`).  Similarity scores (JS numbers) are
modelled as rationals.  Every outbound call is recorded in a trace of
events so that frame/effect statements (which calls were made, with which
arguments) can be proved.
-/

/-- The `input_type` tag of the embedding provider (`'query' | 'passage'`). -/
inductive EmbedMode where
  | query
  | passage
deriving DecidableEq, Repr

/-- An embedding vector of rationals (JS `number[]`). -/
abbrev Embedding := List ℚ

/-- Row/chunk metadata, modelled as an association list (JS object). -/
abbrev Metadata := List (String × String)

/-- Provenance tag of a search hit (`matchType` in the source). -/
inductive MatchType where
  | semantic
  | keyword
  | variation
deriving DecidableEq, Repr

/-- A row returned by the `match_documents` rpc:
`{id, content, metadata, similarity}`.  The code guards against an absent
similarity (`doc.similarity || 0`), so the field is optional here. -/
structure SemHit where
  id : Nat
  content : String
  metadata : Metadata
  similarity : Option ℚ
deriving DecidableEq, Repr

/-- A row returned by the keyword `select('id, content, metadata')` query:
no similarity field. -/
structure KwHit where
  id : Nat
  content : String
  metadata : Metadata
deriving DecidableEq, Repr

/-- A hit in the merged result sequence of `searchDocuments`. -/
structure ResultDoc where
  id : Nat
  content : String
  metadata : Metadata
  similarity : Option ℚ
  matchType : MatchType
deriving DecidableEq, Repr

/-- A row passed to `supabase.from('documents').insert(...)` during
ingestion; `category_id` is present only when the caller supplied a truthy
`metadata.categoryId` (or was deleted for the compatibility retry). -/
structure InsertRow where
  content : String
  metadata : Metadata
  embedding : Embedding
  category_id : Option String
deriving DecidableEq, Repr

/-- A chunk produced by the text splitter (`{pageContent, metadata}`). -/
structure Chunk where
  pageContent : String
  metadata : Metadata
deriving DecidableEq, Repr

/-- An observable outbound call made by the core. -/
inductive REvent where
  /-- A `getEmbedding(text, mode)` call. -/
  | embed (text : String) (mode : EmbedMode)
  /-- A `supabase.rpc('match_documents', ...)` call with its query embedding, match threshold and match count. -/
  | matchCall (e : Embedding) (threshold : ℚ) (count : Nat)
  /-- keyword `select ... or(terms...).limit(count)` call. -/
  | kwCall (terms : List String) (count : Nat)
  /-- A `supabase.from('documents').insert(row)` call. -/
  | insert (row : InsertRow)
deriving DecidableEq, Repr

/-- The environment of external collaborators: the embedding provider,
the vector store, and the text splitter.  Each is a pure oracle;
`Except.error` models a thrown exception (for `embed`) or a reported
store error (for the two search calls), and `insertDoc` returns
`some message` when the insert reports an error. -/
structure Env where
  embed : String → EmbedMode → Except String Embedding
  matchDocuments : Embedding → ℚ → Nat → Except String (List SemHit)
  keywordSelect : List String → Nat → Except String (List KwHit)
  insertDoc : InsertRow → Option String
  createChunks : String → List Chunk

/-! ## String helpers (JS primitives used by the source) -/

/-- Whether `ps` is an initial segment of `cs` (character lists). -/
def beginsWith : List Char → List Char → Bool
  | [], _ => true
  | _ :: _, [] => false
  | p :: ps, c :: cs => p == c && beginsWith ps cs

/-- Whether `pat` occurs as a contiguous segment of `cs`. -/
def occursIn (pat : List Char) : List Char → Bool
  | [] => beginsWith pat []
  | c :: cs => beginsWith pat (c :: cs) || occursIn pat cs

/-- JS `String.prototype.includes(pat)`: `s` contains `pat` as a
substring. -/
def containsSub (s pat : String) : Bool :=
  occursIn pat.data s.data

/-- JS `String.prototype.toLowerCase()` on the ASCII strings the source
works with. -/
def toLowerStr (s : String) : String :=
  String.mk (s.data.map Char.toLower)

/-- Split a character list at every character satisfying `p`; adjacent
separators produce empty segments, exactly like `String.split` /
JS `split` on a single-character regex class. -/
def splitChars (p : Char → Bool) : List Char → List (List Char)
  | [] => [[]]
  | c :: cs =>
    let r := splitChars p cs
    if p c then [] :: r
    else
      match r with
      | [] => [[c]]
      | w :: ws => (c :: w) :: ws

/-- A whitespace character, as matched by the regex class `\s`
(restricted to the ASCII whitespace the inputs use). -/
def jsIsSpace (c : Char) : Bool :=
  c = ' ' || c = '\t' || c = '\n' || c = '\r' || c = '\x0b' || c = '\x0c'

/-- A word character, as matched by the regex class `\w`. -/
def jsIsWordChar (c : Char) : Bool :=
  c.isAlphanum || c = '_'

/-! ## `extractKeyTerms` -/

/-- The fixed bilingual stop-word set of `extractKeyTerms`. -/
def stopWords : List String :=
  ["the", "a", "an", "is", "are", "was", "were", "be", "been", "being",
   "have", "has", "had", "do", "does", "did", "will", "would", "could", "should",
   "may", "might", "must", "shall", "can", "need", "dare", "ought", "used",
   "what", "which", "who", "whom", "this", "that", "these", "those", "am",
   "your", "you", "how", "much", "many", "po", "ba", "na", "ng", "sa", "ang",
   "yung", "mo", "ko", "nyo", "nila", "ka", "ako", "siya", "kami", "tayo", "sila",
   "magkano", "ano", "paano", "saan", "kailan", "bakit", "ilan"]

/-- JS `[...new Set(xs)]`: remove duplicates keeping the first occurrence,
in order; `seen` accumulates the elements already emitted. -/
def dedupFirstAux (seen : List String) : List String → List String
  | [] => []
  | x :: xs =>
    if seen.contains x then dedupFirstAux seen xs
    else x :: dedupFirstAux (seen ++ [x]) xs

/-- JS `[...new Set(xs)]` with an empty starting set. -/
def dedupFirst (xs : List String) : List String :=
  dedupFirstAux [] xs

/-- The filtered token stream of `extractKeyTerms`:
`query.toLowerCase().replace(/[^\w\s]/g, '').split(/\s+/)
      .filter(w => w.length > 2 && !stopWords.has(w))`. -/
def keyTermCandidates (query : String) : List String :=
  let cleaned := (toLowerStr query).data.filter
    (fun c => jsIsWordChar c || jsIsSpace c)
  ((splitChars jsIsSpace cleaned).map String.mk).filter
    (fun w => w.length > 2 && !(stopWords.contains w))

/-- The function `extractKeyTerms` (rag.ts:200-218): lower-case, strip punctuation,
split on whitespace, drop short tokens and stop words, dedupe, keep at
most 5 terms. -/
def extractKeyTerms (query : String) : List String :=
  (dedupFirst (keyTermCandidates query)).take 5

/-! ## `generateQuestionVariations` -/

/-- The function `generateQuestionVariations` (rag.ts:223-254): sequential topic checks
on the lower-cased query, each appending its canned phrases. -/
def generateQuestionVariations (query : String) : List String :=
  let lowerQuery := toLowerStr query
  let v1 : List String :=
    if containsSub lowerQuery "price" || containsSub lowerQuery "cost" ||
       containsSub lowerQuery "magkano" || containsSub lowerQuery "presyo" then
      ["What is the price?", "How much does it cost?", "Magkano?"]
    else []
  let v2 : List String :=
    if containsSub lowerQuery "product" || containsSub lowerQuery "produkto" ||
       containsSub lowerQuery "item" then
      ["What products do you have?", "Tell me about your products"]
    else []
  let v3 : List String :=
    if containsSub lowerQuery "deliver" || containsSub lowerQuery "shipping" ||
       containsSub lowerQuery "padala" then
      ["Do you deliver?", "How much is shipping?", "Nagdedeliver ba kayo?"]
    else []
  let v4 : List String :=
    if containsSub lowerQuery "pay" || containsSub lowerQuery "bayad" ||
       containsSub lowerQuery "gcash" || containsSub lowerQuery "bank" then
      ["What payment methods do you accept?", "How can I pay?"]
    else []
  v1 ++ v2 ++ v3 ++ v4

/-- The topic table of the query expander, stated as data: each entry is
(trigger substrings, canned paraphrases), in the fixed topic-check order
pricing, product, delivery, payment.  Used to state the refinement
theorem about `generateQuestionVariations`. -/
def topicTable : List (List String × List String) :=
  [(["price", "cost", "magkano", "presyo"],
    ["What is the price?", "How much does it cost?", "Magkano?"]),
   (["product", "produkto", "item"],
    ["What products do you have?", "Tell me about your products"]),
   (["deliver", "shipping", "padala"],
    ["Do you deliver?", "How much is shipping?", "Nagdedeliver ba kayo?"]),
   (["pay", "bayad", "gcash", "bank"],
    ["What payment methods do you accept?", "How can I pay?"])]

/-! ## Merge, dedupe, sort, render -/

/-- The fixed similarity floor `0.30` passed as `match_threshold` to every
`match_documents` call (rag.ts:109, 146). -/
def matchThreshold : ℚ := mkRat 3 10

/-- The fixed moderate similarity `0.5` assigned to keyword hits
(rag.ts:132). -/
def keywordSim : ℚ := mkRat 1 2

/-- JS `doc.similarity || 0`: an absent similarity counts as 0. -/
def simOf (d : ResultDoc) : ℚ :=
  d.similarity.getD 0

/-- Tag a semantic hit: `{...doc, matchType: 'semantic'}`. -/
def tagSemantic (h : SemHit) : ResultDoc :=
  { id := h.id, content := h.content, metadata := h.metadata,
    similarity := h.similarity, matchType := .semantic }

/-- Tag a variation hit: `{...doc, matchType: 'variation'}`. -/
def tagVariation (h : SemHit) : ResultDoc :=
  { id := h.id, content := h.content, metadata := h.metadata,
    similarity := h.similarity, matchType := .variation }

/-- Build a keyword hit: `{...doc, similarity: 0.5, matchType: 'keyword'}`. -/
def mkKeywordHit (h : KwHit) : ResultDoc :=
  { id := h.id, content := h.content, metadata := h.metadata,
    similarity := some keywordSim, matchType := .keyword }

/-- One step of the dedupe loop (rag.ts:167-172): look up the entry kept
for `d.content`; a strictly higher similarity replaces it in place,
otherwise the map is unchanged; a new content is appended (JS `Map`
preserves key insertion order). -/
def dedupeStep (acc : List ResultDoc) (d : ResultDoc) : List ResultDoc :=
  match acc.find? (fun e => e.content == d.content) with
  | none => acc ++ [d]
  | some e =>
    if simOf e < simOf d then
      acc.map (fun x => if x.content == d.content then d else x)
    else acc

/-- The dedupe-by-content pass over the merged hit sequence. -/
def dedupeByContent (l : List ResultDoc) : List ResultDoc :=
  l.foldl dedupeStep []

/-- Stable descending insertion by similarity: the new element goes
before the first element whose similarity is not greater, so elements of
equal similarity keep their original relative order. -/
def insertDesc (d : ResultDoc) : List ResultDoc → List ResultDoc
  | [] => [d]
  | e :: es => if simOf d < simOf e then e :: insertDesc d es else d :: e :: es

/-- The stable sort by similarity descending performed by
`.sort((a, b) => (b.similarity || 0) - (a.similarity || 0))`
(JS `Array.prototype.sort` is stable). -/
def sortBySimDesc : List ResultDoc → List ResultDoc
  | [] => []
  | d :: ds => insertDesc d (sortBySimDesc ds)

/-- Dedupe, sort descending, and keep the first `limit` hits
(rag.ts:165-177). -/
def rankedResults (l : List ResultDoc) (limit : Nat) : List ResultDoc :=
  (sortBySimDesc (dedupeByContent l)).take limit

/-- Render the final string (rag.ts:185-190): empty when no results,
otherwise the contents joined with a blank line. -/
def renderResults (l : List ResultDoc) : String :=
  if l.length = 0 then "" else String.intercalate "\n\n" (l.map (fun d => d.content))

/-! ## `searchDocuments` -/

/-- The variation loop (rag.ts:142-156): for each of the variations,
embed it in query mode (a thrown embedding error propagates) and run
`match_documents` with threshold 0.30 and count 3; a store error for a
variation contributes no hits.  Returns the accumulated `qaResults` and
the trace of calls made. -/
def varLoop (env : Env) : List String → Except String (List ResultDoc) × List REvent
  | [] => (.ok [], [])
  | v :: vs =>
    match env.embed v .query with
    | .error m => (.error m, [.embed v .query])
    | .ok emb =>
      let ev : List REvent := [.embed v .query, .matchCall emb matchThreshold 3]
      match env.matchDocuments emb matchThreshold 3 with
      | .error _ =>
        let r := varLoop env vs
        (r.1, ev ++ r.2)
      | .ok rs =>
        let r := varLoop env vs
        (r.1.map (fun rest => rs.map tagVariation ++ rest), ev ++ r.2)

/-- The gathering phase of `searchDocuments` (rag.ts:104-163): embed the
query, run the semantic search (a store error degrades to no hits), run
the keyword search when there are key terms (a store error degrades to no
hits), run the variation loop, and concatenate the three strategies'
hits in the fixed order semantic, keyword, variation.  `Except.error`
models an exception escaping the gathering phase. -/
def gatherResults (env : Env) (query : String) (limit : Nat) :
    Except String (List ResultDoc) × List REvent :=
  match env.embed query .query with
  | .error m => (.error m, [.embed query .query])
  | .ok qe =>
    let semEv : List REvent := [.embed query .query, .matchCall qe matchThreshold limit]
    let semanticResults : List SemHit :=
      match env.matchDocuments qe matchThreshold limit with
      | .ok rs => rs
      | .error _ => []
    let keyTerms := extractKeyTerms query
    let kw : List ResultDoc × List REvent :=
      if keyTerms.length > 0 then
        match env.keywordSelect keyTerms limit with
        | .ok rs => (rs.map mkKeywordHit, [.kwCall keyTerms limit])
        | .error _ => ([], [.kwCall keyTerms limit])
      else ([], [])
    let var := varLoop env ((generateQuestionVariations query).take 2)
    (var.1.map (fun qaResults => semanticResults.map tagSemantic ++ kw.1 ++ qaResults),
     semEv ++ kw.2 ++ var.2)

/-- The body of `searchDocuments` up to the `catch`: gather, dedupe,
sort, truncate, render. -/
def searchDocumentsE (env : Env) (query : String) (limit : Nat) :
    Except String String :=
  (gatherResults env query limit).1.map
    (fun allResults => renderResults (rankedResults allResults limit))

/-- The trace of outbound calls made by one `searchDocuments` run. -/
def searchTrace (env : Env) (query : String) (limit : Nat) : List REvent :=
  (gatherResults env query limit).2

/-- The function `searchDocuments` (rag.ts:99-195): the whole body is wrapped in
try/catch and any exception is caught and turned into the empty string. -/
def searchDocuments (env : Env) (query : String) (limit : Nat) : String :=
  match searchDocumentsE env query limit with
  | .ok s => s
  | .error _ => ""

/-! ## `addDocument` -/

/-- JS `metadata.categoryId` with JS truthiness: absent or empty string is
falsy, so no `category_id` is attached to the insert row. -/
def categoryIdOf (meta : Metadata) : Option String :=
  match meta.lookup "categoryId" with
  | some v => if v = "" then none else some v
  | none => none

/-- JS spread `{...metadata, ...chunk.metadata}`: object spread where chunk-local
keys win; with association-list first-match lookup the chunk metadata
goes first. -/
def mergeMeta (meta chunkMeta : Metadata) : Metadata :=
  chunkMeta ++ meta

/-- The insert row built for one chunk (rag.ts:54-63). -/
def mkRow (meta : Metadata) (catId : Option String) (c : Chunk)
    (emb : Embedding) : InsertRow :=
  { content := c.pageContent, metadata := mergeMeta meta c.metadata,
    embedding := emb, category_id := catId }

/-- Processing of one chunk in `addDocument` (rag.ts:49-81): embed in
passage mode, insert the row; when the insert error message mentions
`category_id`, retry once with the attribute omitted; any remaining
error is thrown. -/
def insertChunk (env : Env) (meta : Metadata) (catId : Option String)
    (c : Chunk) : Except String Unit × List REvent :=
  match env.embed c.pageContent .passage with
  | .error m => (.error m, [.embed c.pageContent .passage])
  | .ok emb =>
    let row := mkRow meta catId c emb
    let ev : List REvent := [.embed c.pageContent .passage, .insert row]
    match env.insertDoc row with
    | none => (.ok (), ev)
    | some err =>
      if containsSub err "category_id" then
        let row2 := mkRow meta none c emb
        match env.insertDoc row2 with
        | none => (.ok (), ev ++ [.insert row2])
        | some err2 => (.error err2, ev ++ [.insert row2])
      else (.error err, ev)

/-- The chunk loop of `addDocument`: chunks are processed in order and
the first uncaught error aborts the loop; the trace keeps the calls
already made. -/
def addLoop (env : Env) (meta : Metadata) (catId : Option String) :
    List Chunk → Except String Unit × List REvent
  | [] => (.ok (), [])
  | c :: cs =>
    match insertChunk env meta catId c with
    | (.ok _, tr) =>
      let r := addLoop env meta catId cs
      (r.1, tr ++ r.2)
    | (.error m, tr) => (.error m, tr)

/-- The body of `addDocument` up to the `catch`: chunk, then loop. -/
def addAttempt (env : Env) (content : String) (meta : Metadata) :
    Except String Bool × List REvent :=
  let catId := categoryIdOf meta
  let chunks := env.createChunks content
  match addLoop env meta catId chunks with
  | (.ok _, tr) => (.ok true, tr)
  | (.error m, tr) => (.error m, tr)

/-- The trace of outbound calls made by one `addDocument` run. -/
def addTrace (env : Env) (content : String) (meta : Metadata) : List REvent :=
  (addAttempt env content meta).2

/-- The function `addDocument` (rag.ts:34-88): the body is wrapped in try/catch;
an exception is caught and the call returns `false`. -/
def addDocument (env : Env) (content : String) (meta : Metadata) : Bool :=
  match (addAttempt env content meta).1 with
  | .ok b => b
  | .error _ => false

/-! ## Helper predicates on trace events -/

/-- Event is a `match_documents` call. -/
def isMatchCall : REvent → Bool
  | .matchCall _ _ _ => true
  | _ => false

/-- Event is an embedding-provider call. -/
def isEmbedCall : REvent → Bool
  | .embed _ _ => true
  | _ => false

/-- Event is a store insert. -/
def isInsertCall : REvent → Bool
  | .insert _ => true
  | _ => false

/-! ## Lemmas on `dedupFirstAux` -/

theorem dedupFirstAux_sublist (l : List String) :
    ∀ seen, (dedupFirstAux seen l).Sublist l := by
  induction l with
  | nil => intro seen; simp [dedupFirstAux]
  | cons x xs ih =>
    intro seen
    rw [dedupFirstAux]
    split
    · exact (ih seen).trans (List.sublist_cons_self x xs)
    · exact (ih (seen ++ [x])).cons₂ x

theorem mem_dedupFirstAux_iff {y : String} (l : List String) :
    ∀ seen, y ∈ dedupFirstAux seen l ↔ y ∈ l ∧ y ∉ seen := by
  induction l with
  | nil => intro seen; simp [dedupFirstAux]
  | cons x xs ih =>
    intro seen
    by_cases hc : seen.contains x
    · rw [dedupFirstAux, if_pos hc, ih seen]
      have hx : x ∈ seen := List.elem_iff.mp hc
      constructor
      · rintro ⟨h1, h2⟩
        exact ⟨List.mem_cons_of_mem x h1, h2⟩
      · rintro ⟨h1, h2⟩
        rcases List.mem_cons.mp h1 with rfl | h1
        · exact absurd hx h2
        · exact ⟨h1, h2⟩
    · rw [dedupFirstAux, if_neg hc]
      have hx : x ∉ seen := fun hm => hc (List.elem_iff.mpr hm)
      simp only [List.mem_cons, ih (seen ++ [x]), List.mem_append,
        List.mem_singleton]
      constructor
      · rintro (rfl | ⟨h1, h2⟩)
        · exact ⟨Or.inl rfl, hx⟩
        · exact ⟨Or.inr h1, fun hm => h2 (Or.inl hm)⟩
      · rintro ⟨rfl | h1, h2⟩
        · exact Or.inl rfl
        · by_cases hyx : y = x
          · exact Or.inl hyx
          · refine Or.inr ⟨h1, ?_⟩
            rintro (hm | hm)
            · exact h2 hm
            · exact hyx (by simpa using hm)

theorem dedupFirstAux_nodup (l : List String) :
    ∀ seen, (dedupFirstAux seen l).Nodup := by
  induction l with
  | nil => intro seen; simp [dedupFirstAux]
  | cons x xs ih =>
    intro seen
    rw [dedupFirstAux]
    split
    · exact ih seen
    · refine List.Nodup.cons (fun hmem => ?_) (ih (seen ++ [x]))
      rcases (mem_dedupFirstAux_iff xs (seen ++ [x])).mp hmem with ⟨_, h2⟩
      exact h2 (List.mem_append_right seen (List.mem_singleton.mpr rfl))

theorem dedupFirst_nodup (l : List String) : (dedupFirst l).Nodup :=
  dedupFirstAux_nodup l []

theorem dedupFirst_sublist (l : List String) : (dedupFirst l).Sublist l :=
  dedupFirstAux_sublist l []

theorem mem_dedupFirst_iff {y : String} (l : List String) :
    y ∈ dedupFirst l ↔ y ∈ l := by
  simp [dedupFirst, mem_dedupFirstAux_iff]

/-! ## Lemmas on the stable descending sort -/

theorem mem_insertDesc {x d : ResultDoc} (l : List ResultDoc) :
    x ∈ insertDesc d l ↔ x = d ∨ x ∈ l := by
  induction l with
  | nil => simp [insertDesc]
  | cons e es ih =>
    rw [insertDesc]
    split
    · simp only [List.mem_cons, ih]
      tauto
    · simp only [List.mem_cons]

theorem insertDesc_pairwise {d : ResultDoc} {l : List ResultDoc}
    (h : l.Pairwise (fun a b => simOf b ≤ simOf a)) :
    (insertDesc d l).Pairwise (fun a b => simOf b ≤ simOf a) := by
  induction l with
  | nil => simp [insertDesc]
  | cons e es ih =>
    rw [List.pairwise_cons] at h
    rw [insertDesc]
    split
    · rename_i hlt
      refine List.pairwise_cons.mpr ⟨?_, ih h.2⟩
      intro x hx
      rcases (mem_insertDesc es).mp hx with rfl | hx
      · exact le_of_lt hlt
      · exact h.1 x hx
    · rename_i hge
      refine List.pairwise_cons.mpr ⟨?_, List.pairwise_cons.mpr h⟩
      intro x hx
      rcases List.mem_cons.mp hx with rfl | hx
      · exact le_of_not_lt hge
      · exact le_trans (h.1 x hx) (le_of_not_lt hge)

theorem sortBySimDesc_pairwise (l : List ResultDoc) :
    (sortBySimDesc l).Pairwise (fun a b => simOf b ≤ simOf a) := by
  induction l with
  | nil => simp [sortBySimDesc]
  | cons d ds ih => exact insertDesc_pairwise ih

theorem insertDesc_perm (d : ResultDoc) (l : List ResultDoc) :
    (insertDesc d l).Perm (d :: l) := by
  induction l with
  | nil => simp [insertDesc]
  | cons e es ih =>
    rw [insertDesc]
    split
    · exact (ih.cons e).trans (List.Perm.swap d e es)
    · exact List.Perm.refl _

theorem sortBySimDesc_perm (l : List ResultDoc) :
    (sortBySimDesc l).Perm l := by
  induction l with
  | nil => simp [sortBySimDesc]
  | cons d ds ih =>
    exact (insertDesc_perm d (sortBySimDesc ds)).trans (ih.cons d)

theorem mem_sortBySimDesc {x : ResultDoc} {l : List ResultDoc} :
    x ∈ sortBySimDesc l ↔ x ∈ l :=
  (sortBySimDesc_perm l).mem_iff

/-! ## The champion characterization of the dedupe pass -/

/-- The running champion of the dedupe loop restricted to one content
key: starting from the currently kept hit `cur`, a later hit replaces it
exactly when its similarity is strictly higher. -/
def champAux (cur : ResultDoc) : List ResultDoc → ResultDoc
  | [] => cur
  | d :: ds => champAux (if simOf cur < simOf d then d else cur) ds

/-- The kept representative among all hits with one content key. -/
def champ : List ResultDoc → Option ResultDoc
  | [] => none
  | d :: ds => some (champAux d ds)

/-- The entry the dedupe map keeps for content key `c`. -/
def entryFor (acc : List ResultDoc) (c : String) : Option ResultDoc :=
  acc.find? (fun d => d.content == c)

theorem le_simOf_champAux (cur : ResultDoc) (l : List ResultDoc) :
    simOf cur ≤ simOf (champAux cur l) := by
  induction l generalizing cur with
  | nil => simp [champAux]
  | cons d ds ih =>
    rw [champAux]
    split
    · exact le_trans (le_of_lt ‹_›) (ih d)
    · exact ih cur

theorem simOf_le_champAux_of_mem {x : ResultDoc} (cur : ResultDoc)
    (l : List ResultDoc) (hx : x ∈ l) :
    simOf x ≤ simOf (champAux cur l) := by
  induction l generalizing cur with
  | nil => cases hx
  | cons d ds ih =>
    rw [champAux]
    rcases List.mem_cons.mp hx with rfl | hx
    · split
      · exact le_simOf_champAux x ds
      · exact le_trans (le_of_not_lt ‹_›) (le_simOf_champAux cur ds)
    · split
      · exact ih d hx
      · exact ih cur hx

theorem champAux_mem (cur : ResultDoc) (l : List ResultDoc) :
    champAux cur l = cur ∨ champAux cur l ∈ l := by
  induction l generalizing cur with
  | nil => simp [champAux]
  | cons d ds ih =>
    rw [champAux]
    split
    · rcases ih d with h | h
      · exact Or.inr (by rw [h]; exact List.mem_cons_self d ds)
      · exact Or.inr (List.mem_cons_of_mem d h)
    · rcases ih cur with h | h
      · exact Or.inl h
      · exact Or.inr (List.mem_cons_of_mem d h)

theorem champAux_eq_of_le (cur : ResultDoc) (l : List ResultDoc)
    (h : simOf (champAux cur l) ≤ simOf cur) : champAux cur l = cur := by
  induction l generalizing cur with
  | nil => simp [champAux]
  | cons d ds ih =>
    rw [champAux] at h ⊢
    split at h <;> rename_i hd
    · exact absurd (le_trans (le_simOf_champAux d ds) h) (not_le.mpr hd)
    · rw [if_neg hd]
      exact ih cur h

theorem champAux_find? (cur : ResultDoc) (l : List ResultDoc) :
    (cur :: l).find?
        (fun x => decide (simOf (champAux cur l) ≤ simOf x))
      = some (champAux cur l) := by
  induction l generalizing cur with
  | nil => simp [champAux]
  | cons d ds ih =>
    rw [champAux]
    split <;> rename_i hd
    · rw [List.find?]
      have hgt : ¬ simOf (champAux d ds) ≤ simOf cur :=
        not_le.mpr (lt_of_lt_of_le hd (le_simOf_champAux d ds))
      simp only [hgt, decide_False]
      exact ih d
    · by_cases hcur : simOf (champAux cur ds) ≤ simOf cur
      · have : champAux cur ds = cur := champAux_eq_of_le cur ds hcur
        rw [this]
        rw [List.find?]
        simp
      · rw [List.find?]
        simp only [hcur, decide_False]
        rw [List.find?]
        have hdne : ¬ simOf (champAux cur ds) ≤ simOf d :=
          fun hle => hcur (le_trans hle (le_of_not_lt hd))
        simp only [hdne, decide_False]
        have := ih cur
        rw [List.find?] at this
        simp only [hcur, decide_False] at this
        exact this

theorem entryFor_eq_none_iff (acc : List ResultDoc) (c : String) :
    entryFor acc c = none ↔ c ∉ acc.map (fun d => d.content) := by
  rw [entryFor, List.find?_eq_none]
  constructor
  · intro h hc
    rcases List.mem_map.mp hc with ⟨x, hx, hxc⟩
    exact absurd (beq_iff_eq.mpr hxc) (by simpa using h x hx)
  · intro h x hx hbeq
    exact h (List.mem_map.mpr ⟨x, hx, beq_iff_eq.mp hbeq⟩)

theorem entryFor_cons_of_eq {x : ResultDoc} {c : String} (xs : List ResultDoc)
    (h : x.content = c) : entryFor (x :: xs) c = some x :=
  List.find?_cons_of_pos xs (by simp [h])

theorem entryFor_cons_of_ne {x : ResultDoc} {c : String} (xs : List ResultDoc)
    (h : ¬ x.content = c) : entryFor (x :: xs) c = entryFor xs c :=
  List.find?_cons_of_neg xs (by simp [h])

theorem entryFor_append (l₁ l₂ : List ResultDoc) (c : String) :
    entryFor (l₁ ++ l₂) c =
      match entryFor l₁ c with
      | some e => some e
      | none => entryFor l₂ c := by
  induction l₁ with
  | nil => simp [entryFor]
  | cons x xs ih =>
    by_cases hx : x.content = c
    · rw [List.cons_append, entryFor_cons_of_eq _ hx, entryFor_cons_of_eq _ hx]
    · rw [List.cons_append, entryFor_cons_of_ne _ hx, entryFor_cons_of_ne _ hx, ih]

theorem entryFor_replaceAll (acc : List ResultDoc) (d : ResultDoc) (c : String) :
    entryFor (acc.map (fun x => if x.content == d.content then d else x)) c =
      if d.content = c then (entryFor acc c).map (fun _ => d)
      else entryFor acc c := by
  induction acc with
  | nil => by_cases hdc : d.content = c <;> simp [entryFor, hdc]
  | cons x xs ih =>
    rw [List.map_cons]
    by_cases hxd : x.content = d.content
    · rw [if_pos (beq_iff_eq.mpr hxd)]
      by_cases hdc : d.content = c
      · rw [entryFor_cons_of_eq _ hdc, if_pos hdc,
          entryFor_cons_of_eq _ (hxd.trans hdc)]
        rfl
      · rw [entryFor_cons_of_ne _ hdc, ih, if_neg hdc,
          entryFor_cons_of_ne _ (fun h => hdc (hxd.symm.trans h)), if_neg hdc]
    · rw [if_neg (by simpa using hxd)]
      by_cases hxc : x.content = c
      · have hdc : ¬ d.content = c := fun h => hxd (hxc.trans h.symm)
        rw [entryFor_cons_of_eq _ hxc, if_neg hdc, entryFor_cons_of_eq _ hxc]
      · rw [entryFor_cons_of_ne _ hxc, ih, entryFor_cons_of_ne _ hxc]

theorem entryFor_dedupeStep (acc : List ResultDoc) (d : ResultDoc) (c : String) :
    entryFor (dedupeStep acc d) c =
      if d.content = c then
        match entryFor acc c with
        | none => some d
        | some e => some (if simOf e < simOf d then d else e)
      else entryFor acc c := by
  rw [dedupeStep]
  rcases hfind : entryFor acc d.content with _ | e
  · rw [show (acc.find? fun e => e.content == d.content) = none from hfind]
    rw [entryFor_append]
    by_cases hdc : d.content = c
    · have hfc : entryFor acc c = none := by rw [← hdc]; exact hfind
      rw [if_pos hdc, hfc]
      exact entryFor_cons_of_eq [] hdc
    · rw [if_neg hdc]
      rcases hacc : entryFor acc c with _ | e'
      · show entryFor [d] c = none
        rw [entryFor_cons_of_ne [] hdc]
        rfl
      · rfl
  · rw [show (acc.find? fun e => e.content == d.content) = some e from hfind]
    dsimp only
    by_cases hlt : simOf e < simOf d
    · rw [if_pos hlt, entryFor_replaceAll]
      by_cases hdc : d.content = c
      · have hfc : entryFor acc c = some e := by rw [← hdc]; exact hfind
        rw [if_pos hdc, if_pos hdc, hfc]
        simp [hlt]
      · rw [if_neg hdc, if_neg hdc]
    · rw [if_neg hlt]
      by_cases hdc : d.content = c
      · have hfc : entryFor acc c = some e := by rw [← hdc]; exact hfind
        rw [if_pos hdc, hfc]
        simp [hlt]
      · rw [if_neg hdc]

theorem entryFor_foldl (l : List ResultDoc) :
    ∀ (acc : List ResultDoc) (c : String),
      entryFor (l.foldl dedupeStep acc) c =
        champ ((entryFor acc c).toList ++ l.filter (fun d => d.content == c)) := by
  induction l with
  | nil =>
    intro acc c
    rcases h : entryFor acc c with _ | e <;> simp [champ, champAux, h]
  | cons d ds ih =>
    intro acc c
    rw [List.foldl_cons, ih, List.filter_cons]
    by_cases hdc : d.content = c
    · rw [entryFor_dedupeStep, if_pos hdc, if_pos (beq_iff_eq.mpr hdc)]
      rcases hacc : entryFor acc c with _ | e
      · rfl
      · show champ ((if simOf e < simOf d then d else e) :: _) = champ (e :: d :: _)
        rw [champ, champ, champAux]
        rfl
    · rw [entryFor_dedupeStep, if_neg hdc, if_neg (by simpa using hdc)]

theorem entryFor_dedupeByContent (l : List ResultDoc) (c : String) :
    entryFor (dedupeByContent l) c = champ (l.filter (fun d => d.content == c)) := by
  rw [dedupeByContent, entryFor_foldl]
  rfl

theorem map_content_replaceAll (acc : List ResultDoc) (d : ResultDoc) :
    (acc.map (fun x => if x.content == d.content then d else x)).map
        (fun x => x.content)
      = acc.map (fun x => x.content) := by
  rw [List.map_map]
  apply List.map_congr_left
  intro x _
  by_cases h : x.content = d.content
  · simp [Function.comp, h]
  · simp [Function.comp, h]

theorem map_content_dedupeStep (acc : List ResultDoc) (d : ResultDoc) :
    (dedupeStep acc d).map (fun x => x.content) =
      if (acc.map (fun x => x.content)).contains d.content
      then acc.map (fun x => x.content)
      else acc.map (fun x => x.content) ++ [d.content] := by
  rw [dedupeStep]
  rcases hfind : acc.find? (fun e => e.content == d.content) with _ | e
  · rw [hfind]
    have hnm : d.content ∉ acc.map (fun x => x.content) :=
      (entryFor_eq_none_iff acc d.content).mp hfind
    rw [if_neg (by simpa [List.elem_iff] using hnm)]
    simp
  · rw [hfind]
    dsimp only
    have hmem : d.content ∈ acc.map (fun x => x.content) := by
      have he : e ∈ acc := List.mem_of_find?_eq_some hfind
      have hp := List.find?_some hfind
      exact List.mem_map.mpr ⟨e, he, beq_iff_eq.mp hp⟩
    rw [if_pos (List.elem_iff.mpr hmem)]
    split
    · exact map_content_replaceAll acc d
    · rfl

theorem map_content_foldl (l : List ResultDoc) :
    ∀ acc : List ResultDoc,
      (l.foldl dedupeStep acc).map (fun d => d.content)
        = acc.map (fun d => d.content)
          ++ dedupFirstAux (acc.map (fun d => d.content))
              (l.map (fun d => d.content)) := by
  induction l with
  | nil => intro acc; simp [dedupFirstAux]
  | cons d ds ih =>
    intro acc
    rw [List.foldl_cons, ih (dedupeStep acc d), map_content_dedupeStep,
      List.map_cons, dedupFirstAux]
    by_cases hseen : (acc.map (fun x => x.content)).contains d.content
    · rw [if_pos hseen, if_pos hseen]
    · rw [if_neg hseen, if_neg hseen, List.append_assoc]
      rfl

theorem map_content_dedupe (l : List ResultDoc) :
    (dedupeByContent l).map (fun d => d.content)
      = dedupFirst (l.map (fun d => d.content)) := by
  rw [dedupeByContent, map_content_foldl]
  rfl

theorem dedupe_content_nodup (l : List ResultDoc) :
    ((dedupeByContent l).map (fun d => d.content)).Nodup := by
  rw [map_content_dedupe]
  exact dedupFirst_nodup _

theorem entryFor_of_mem {acc : List ResultDoc} {d : ResultDoc}
    (hnd : (acc.map (fun x => x.content)).Nodup) (hd : d ∈ acc) :
    entryFor acc d.content = some d := by
  induction acc with
  | nil => cases hd
  | cons x xs ih =>
    rcases List.mem_cons.mp hd with rfl | hd
    · exact entryFor_cons_of_eq xs rfl
    · rw [List.map_cons, List.nodup_cons] at hnd
      have hne : ¬ x.content = d.content := fun h =>
        hnd.1 (h ▸ List.mem_map.mpr ⟨d, hd, rfl⟩)
      rw [entryFor_cons_of_ne xs hne]
      exact ih hnd.2 hd

theorem champ_some_mem {l : List ResultDoc} {d : ResultDoc}
    (h : champ l = some d) : d ∈ l := by
  cases l with
  | nil => cases h
  | cons x xs =>
    rw [champ] at h
    have hd := Option.some.inj h
    rcases champAux_mem x xs with h' | h'
    · rw [← hd, h']
      exact List.mem_cons_self x xs
    · exact List.mem_cons_of_mem x (hd ▸ h')

theorem champ_max {l : List ResultDoc} {d : ResultDoc}
    (h : champ l = some d) : ∀ x ∈ l, simOf x ≤ simOf d := by
  cases l with
  | nil => cases h
  | cons y ys =>
    rw [champ] at h
    have hd := Option.some.inj h
    intro x hx
    rcases List.mem_cons.mp hx with rfl | hx
    · exact hd ▸ le_simOf_champAux x ys
    · exact hd ▸ simOf_le_champAux_of_mem y ys hx

theorem champ_first {l : List ResultDoc} {d : ResultDoc}
    (h : champ l = some d) :
    l.find? (fun x => decide (simOf d ≤ simOf x)) = some d := by
  cases l with
  | nil => cases h
  | cons y ys =>
    rw [champ] at h
    have hd := Option.some.inj h
    subst hd
    exact champAux_find? y ys

theorem find?_filter_eq {α : Type} (l : List α) (p q : α → Bool) :
    (l.filter p).find? q = l.find? (fun a => p a && q a) := by
  induction l with
  | nil => rfl
  | cons x xs ih =>
    rw [List.filter_cons]
    by_cases hp : p x
    · rw [if_pos hp]
      by_cases hq : q x
      · rw [List.find?_cons_of_pos _ hq,
          List.find?_cons_of_pos _ (by simp [hp, hq])]
      · rw [List.find?_cons_of_neg _ (by simp [hq]),
          List.find?_cons_of_neg _ (by simp [hq]), ih]
    · rw [if_neg (by simpa using hp),
        List.find?_cons_of_neg _ (by simp [hp]), ih]

theorem find?_append_eq {α : Type} (l₁ l₂ : List α) (p : α → Bool) :
    (l₁ ++ l₂).find? p =
      match l₁.find? p with
      | some a => some a
      | none => l₂.find? p := by
  induction l₁ with
  | nil => rfl
  | cons x xs ih =>
    by_cases hp : p x
    · rw [List.cons_append, List.find?_cons_of_pos _ hp,
        List.find?_cons_of_pos _ hp]
    · rw [List.cons_append, List.find?_cons_of_neg _ (by simp [hp]),
        List.find?_cons_of_neg _ (by simp [hp]), ih]

theorem mem_dedupeByContent {l : List ResultDoc} {d : ResultDoc}
    (hd : d ∈ dedupeByContent l) : d ∈ l := by
  have hentry : entryFor (dedupeByContent l) d.content = some d :=
    entryFor_of_mem (dedupe_content_nodup l) hd
  rw [entryFor_dedupeByContent] at hentry
  exact List.mem_of_mem_filter (champ_some_mem hentry)

/-! ## Lemmas on the variation loop -/

theorem varLoop_trace_matchCall {env : Env} {vs : List String}
    {e : Embedding} {th : ℚ} {n : Nat}
    (h : REvent.matchCall e th n ∈ (varLoop env vs).2) :
    th = matchThreshold ∧ n = 3 := by
  induction vs with
  | nil => cases h
  | cons v rest ih =>
    rw [varLoop] at h
    rcases hemb : env.embed v EmbedMode.query with m | emb <;> rw [hemb] at h
    · simp at h
    · dsimp only at h
      rcases hmd : env.matchDocuments emb matchThreshold 3 with m | rs <;>
        rw [hmd] at h <;> dsimp only at h <;>
        rcases List.mem_append.mp h with h | h <;>
        first
          | (exact ih h)
          | (simp only [List.mem_cons, List.mem_singleton] at h
             rcases h with h | h
             · cases h
             · rcases h with h | h
               · exact ⟨(REvent.matchCall.injEq _ _ _ _ _ _).mp h |>.2.1.symm ▸ rfl, by
                   have := (REvent.matchCall.injEq _ _ _ _ _ _).mp h
                   exact this.2.2⟩
               · cases h)

theorem varLoop_trace_embed {env : Env} {vs : List String}
    {t : String} {m : EmbedMode}
    (h : REvent.embed t m ∈ (varLoop env vs).2) :
    m = EmbedMode.query ∧ t ∈ vs := by
  induction vs with
  | nil => cases h
  | cons v rest ih =>
    rw [varLoop] at h
    rcases hemb : env.embed v EmbedMode.query with em | emb <;> rw [hemb] at h
    · simp only [List.mem_singleton] at h
      have := (REvent.embed.injEq _ _ _ _).mp h
      exact ⟨this.2, by rw [this.1]; exact List.mem_cons_self v rest⟩
    · dsimp only at h
      have step : REvent.embed t m ∈
          ([REvent.embed v EmbedMode.query,
            REvent.matchCall emb matchThreshold 3] : List REvent)
          → m = EmbedMode.query ∧ t ∈ v :: rest := by
        intro hm
        simp only [List.mem_cons, List.mem_singleton] at hm
        rcases hm with hm | hm
        · have := (REvent.embed.injEq _ _ _ _).mp hm
          exact ⟨this.2, by rw [this.1]; exact List.mem_cons_self v rest⟩
        · rcases hm with hm | hm
          · cases hm
          · cases hm
      have tail : REvent.embed t m ∈ (varLoop env rest).2
          → m = EmbedMode.query ∧ t ∈ v :: rest := by
        intro hm
        rcases ih hm with ⟨h1, h2⟩
        exact ⟨h1, List.mem_cons_of_mem v h2⟩
      rcases hmd : env.matchDocuments emb matchThreshold 3 with em | rs <;>
        rw [hmd] at h <;> dsimp only at h <;>
        rcases List.mem_append.mp h with h | h
      · exact step h
      · exact tail h
      · exact step h
      · exact tail h

theorem varLoop_trace_matchCall_count (env : Env) (vs : List String) :
    ((varLoop env vs).2.countP isMatchCall) ≤ vs.length := by
  induction vs with
  | nil => simp [varLoop]
  | cons v rest ih =>
    rw [varLoop]
    rcases hemb : env.embed v EmbedMode.query with em | emb
    · simp [List.countP, List.countP.go, isMatchCall]
    · dsimp only
      rcases hmd : env.matchDocuments emb matchThreshold 3 with em | rs <;>
        dsimp only <;>
        rw [List.countP_append] <;>
        have hev : (([REvent.embed v EmbedMode.query,
            REvent.matchCall emb matchThreshold 3] : List REvent).countP
              isMatchCall) = 1 := by rfl
      · rw [List.length_cons, hev]
        omega
      · rw [List.length_cons, hev]
        omega

/-- The semantic-strategy hits of one search, as a function of the query
embedding: a reported rpc error degrades to no hits. -/
def semanticHits (env : Env) (qe : Embedding) (limit : Nat) : List ResultDoc :=
  match env.matchDocuments qe matchThreshold limit with
  | .ok rs => rs.map tagSemantic
  | .error _ => []

/-- The keyword-strategy hits of one search: skipped when there are no
key terms, and a reported store error degrades to no hits. -/
def keywordHits (env : Env) (query : String) (limit : Nat) : List ResultDoc :=
  if (extractKeyTerms query).length > 0 then
    match env.keywordSelect (extractKeyTerms query) limit with
    | .ok rs => rs.map mkKeywordHit
    | .error _ => []
  else []

theorem gatherResults_embed_error {env : Env} {q : String} {limit : Nat}
    {m : String} (h : env.embed q EmbedMode.query = Except.error m) :
    gatherResults env q limit = (Except.error m, [REvent.embed q EmbedMode.query]) := by
  rw [gatherResults, h]

theorem gatherResults_embed_ok {env : Env} {q : String} {limit : Nat}
    {qe : Embedding} (h : env.embed q EmbedMode.query = Except.ok qe) :
    gatherResults env q limit =
      (((varLoop env ((generateQuestionVariations q).take 2)).1).map
          (fun qa => semanticHits env qe limit ++ keywordHits env q limit ++ qa),
       [REvent.embed q EmbedMode.query, REvent.matchCall qe matchThreshold limit]
         ++ (if (extractKeyTerms q).length > 0
             then [REvent.kwCall (extractKeyTerms q) limit] else [])
         ++ (varLoop env ((generateQuestionVariations q).take 2)).2) := by
  rw [gatherResults, h]
  dsimp only
  rw [semanticHits, keywordHits]
  rcases hsem : env.matchDocuments qe matchThreshold limit with em | rs <;>
    by_cases hkt : (extractKeyTerms q).length > 0 <;>
    simp only [hsem, if_pos, if_neg, hkt] <;>
    rcases hkw : env.keywordSelect (extractKeyTerms q) limit with em2 | krs <;>
    simp [hkw]

/-! ## Store errors behave like empty result sets -/

theorem varLoop_congr {env₁ env₂ : Env} (hE : env₁.embed = env₂.embed)
    (hM : ∀ e th c, env₁.matchDocuments e th c = env₂.matchDocuments e th c ∨
      ((∃ m, env₁.matchDocuments e th c = Except.error m)
        ∧ env₂.matchDocuments e th c = Except.ok [])) :
    ∀ vs : List String, (varLoop env₁ vs).1 = (varLoop env₂ vs).1 := by
  intro vs
  induction vs with
  | nil => rfl
  | cons v rest ih =>
    rw [varLoop, varLoop, ← hE]
    rcases hemb : env₁.embed v EmbedMode.query with m | emb
    · rfl
    · dsimp only
      rcases hM emb matchThreshold 3 with heq | ⟨⟨m, herr⟩, hok⟩
      · rw [← heq]
        rcases hmd : env₁.matchDocuments emb matchThreshold 3 with m | rs <;>
          dsimp only
        · exact ih
        · rw [ih]
      · rw [herr, hok]
        dsimp only
        rw [ih]
        rcases (varLoop env₂ rest).1 with m | qa
        · rfl
        · rfl

theorem semanticHits_congr {env₁ env₂ : Env}
    (hM : ∀ e th c, env₁.matchDocuments e th c = env₂.matchDocuments e th c ∨
      ((∃ m, env₁.matchDocuments e th c = Except.error m)
        ∧ env₂.matchDocuments e th c = Except.ok []))
    (qe : Embedding) (limit : Nat) :
    semanticHits env₁ qe limit = semanticHits env₂ qe limit := by
  rw [semanticHits, semanticHits]
  rcases hM qe matchThreshold limit with heq | ⟨⟨m, herr⟩, hok⟩
  · rw [heq]
  · rw [herr, hok]
    rfl

theorem keywordHits_congr {env₁ env₂ : Env}
    (hK : ∀ ts c, env₁.keywordSelect ts c = env₂.keywordSelect ts c ∨
      ((∃ m, env₁.keywordSelect ts c = Except.error m)
        ∧ env₂.keywordSelect ts c = Except.ok []))
    (q : String) (limit : Nat) :
    keywordHits env₁ q limit = keywordHits env₂ q limit := by
  rw [keywordHits, keywordHits]
  rcases hK (extractKeyTerms q) limit with heq | ⟨⟨m, herr⟩, hok⟩
  · rw [heq]
  · rw [herr, hok]
    split <;> rfl

theorem gather_value_congr {env₁ env₂ : Env} (hE : env₁.embed = env₂.embed)
    (hM : ∀ e th c, env₁.matchDocuments e th c = env₂.matchDocuments e th c ∨
      ((∃ m, env₁.matchDocuments e th c = Except.error m)
        ∧ env₂.matchDocuments e th c = Except.ok []))
    (hK : ∀ ts c, env₁.keywordSelect ts c = env₂.keywordSelect ts c ∨
      ((∃ m, env₁.keywordSelect ts c = Except.error m)
        ∧ env₂.keywordSelect ts c = Except.ok []))
    (q : String) (limit : Nat) :
    (gatherResults env₁ q limit).1 = (gatherResults env₂ q limit).1 := by
  rcases hemb : env₁.embed q EmbedMode.query with m | qe
  · rw [gatherResults_embed_error hemb,
      gatherResults_embed_error (hE ▸ hemb)]
  · rw [gatherResults_embed_ok hemb,
      gatherResults_embed_ok (hE ▸ hemb)]
    dsimp only
    rw [semanticHits_congr hM qe limit, keywordHits_congr hK q limit,
      varLoop_congr hE hM ((generateQuestionVariations q).take 2)]

/-! ## Lemmas on `addDocument` -/

theorem addLoop_ok_iff (env : Env) (meta : Metadata) (catId : Option String) :
    ∀ cs : List Chunk, ((addLoop env meta catId cs).1 = Except.ok () ↔
      ∀ c ∈ cs, (insertChunk env meta catId c).1 = Except.ok ()) := by
  intro cs
  induction cs with
  | nil => simp [addLoop]
  | cons c rest ih =>
    rw [addLoop]
    rcases hic : insertChunk env meta catId c with ⟨r, tr⟩
    rcases r with m | u
    · dsimp only
      constructor
      · intro h
        cases h
      · intro hall
        have := hall c (List.mem_cons_self c rest)
        rw [hic] at this
        cases this
    · dsimp only
      constructor
      · intro h
        intro c' hc'
        rcases List.mem_cons.mp hc' with rfl | hc'
        · rw [hic]
        · exact (ih.mp h) c' hc'
      · intro hall
        exact ih.mpr (fun c' hc' => hall c' (List.mem_cons_of_mem c hc'))

theorem addTrace_eq (env : Env) (content : String) (meta : Metadata) :
    addTrace env content meta =
      (addLoop env meta (categoryIdOf meta) (env.createChunks content)).2 := by
  rw [addTrace, addAttempt]
  rcases hl : addLoop env meta (categoryIdOf meta) (env.createChunks content)
    with ⟨r, tr⟩
  rcases r with m | u <;> rfl

theorem addDocument_true_iff (env : Env) (content : String) (meta : Metadata) :
    addDocument env content meta = true ↔
      ∀ c ∈ env.createChunks content,
        (insertChunk env meta (categoryIdOf meta) c).1 = Except.ok () := by
  rw [addDocument, addAttempt, ← addLoop_ok_iff]
  rcases hl : addLoop env meta (categoryIdOf meta) (env.createChunks content)
    with ⟨r, tr⟩
  rcases r with m | u
  · dsimp only
    constructor
    · intro h
      cases h
    · intro h
      cases h
  · dsimp only
    constructor
    · intro _
      rfl
    · intro _
      rfl

theorem insertChunk_retry {env : Env} {meta : Metadata} {catId : Option String}
    {c : Chunk} {emb : Embedding} {err : String}
    (hE : env.embed c.pageContent EmbedMode.passage = Except.ok emb)
    (hI : env.insertDoc (mkRow meta catId c emb) = some err)
    (hC : containsSub err "category_id" = true) :
    insertChunk env meta catId c =
      (match env.insertDoc (mkRow meta none c emb) with
       | none => Except.ok ()
       | some err2 => Except.error err2,
       [REvent.embed c.pageContent EmbedMode.passage,
        REvent.insert (mkRow meta catId c emb),
        REvent.insert (mkRow meta none c emb)]) := by
  rw [insertChunk, hE]
  dsimp only
  rw [hI]
  dsimp only
  rw [if_pos hC]
  rcases h2 : env.insertDoc (mkRow meta none c emb) with _ | err2 <;> rfl

theorem insertChunk_abort {env : Env} {meta : Metadata} {catId : Option String}
    {c : Chunk} {emb : Embedding} {err : String}
    (hE : env.embed c.pageContent EmbedMode.passage = Except.ok emb)
    (hI : env.insertDoc (mkRow meta catId c emb) = some err)
    (hC : containsSub err "category_id" = false) :
    insertChunk env meta catId c =
      (Except.error err,
       [REvent.embed c.pageContent EmbedMode.passage,
        REvent.insert (mkRow meta catId c emb)]) := by
  rw [insertChunk, hE]
  dsimp only
  rw [hI]
  dsimp only
  rw [if_neg (by simp [hC])]

theorem addLoop_trace_mono (env : Env) (meta : Metadata) (catId : Option String) :
    ∀ (l₁ : List Chunk) (c : Chunk) (l₂ : List Chunk),
      (∀ c' ∈ l₁, (insertChunk env meta catId c').1 = Except.ok ()) →
      ∀ e ∈ (insertChunk env meta catId c).2,
        e ∈ (addLoop env meta catId (l₁ ++ c :: l₂)).2 := by
  intro l₁
  induction l₁ with
  | nil =>
    intro c l₂ _ e he
    rw [List.nil_append, addLoop]
    rcases hic : insertChunk env meta catId c with ⟨r, tr⟩
    rw [hic] at he
    rcases r with m | u <;> dsimp only
    · exact he
    · exact List.mem_append_left _ he
  | cons c₀ rest ih =>
    intro c l₂ hall e he
    rw [List.cons_append, addLoop]
    have h₀ : (insertChunk env meta catId c₀).1 = Except.ok () :=
      hall c₀ (List.mem_cons_self c₀ rest)
    rcases hic : insertChunk env meta catId c₀ with ⟨r, tr⟩
    rw [hic] at h₀
    rcases r with m | u
    · cases h₀
    · dsimp only
      exact List.mem_append_right _
        (ih c l₂ (fun c' hc' => hall c' (List.mem_cons_of_mem c₀ hc')) e he)

/-! ## Claim theorems -/

/-- Claim C2. In `searchDocuments`' merge step, deduplication by content
keeps exactly one representative hit per distinct content string — the
one with the highest similarity (absent similarity counts as 0); on a
tie the hit encountered first in the merged sequence is kept; and a hit
with strictly higher similarity than the kept hit for the same content
is never discarded.  Formally: the kept contents are the first-occurrence
dedup of all contents (so exactly one representative per distinct
content, in first-encounter order); every kept hit comes from the input,
dominates the similarity of every input hit sharing its content, and is
the first input hit of its content whose similarity attains that
maximum. -/
theorem dedupe_keeps_highest_similarity_first :
    (∀ l : List ResultDoc,
        (dedupeByContent l).map (fun d => d.content)
          = dedupFirst (l.map (fun d => d.content)))
    ∧ (∀ l : List ResultDoc, ((dedupeByContent l).map (fun d => d.content)).Nodup)
    ∧ (∀ (l : List ResultDoc) (c : String),
        c ∈ (dedupeByContent l).map (fun d => d.content)
          ↔ c ∈ l.map (fun d => d.content))
    ∧ (∀ l : List ResultDoc, ∀ d ∈ dedupeByContent l,
        d ∈ l
        ∧ (∀ x ∈ l, x.content = d.content → simOf x ≤ simOf d)
        ∧ l.find? (fun x => x.content == d.content
            && decide (simOf d ≤ simOf x)) = some d) := by
  refine ⟨map_content_dedupe, dedupe_content_nodup, ?_, ?_⟩
  · intro l c
    rw [map_content_dedupe]
    exact mem_dedupFirst_iff _
  · intro l d hd
    have hentry : entryFor (dedupeByContent l) d.content = some d :=
      entryFor_of_mem (dedupe_content_nodup l) hd
    rw [entryFor_dedupeByContent] at hentry
    refine ⟨mem_dedupeByContent hd, ?_, ?_⟩
    · intro x hx hxc
      exact champ_max hentry x
        (List.mem_filter.mpr ⟨hx, beq_iff_eq.mpr hxc⟩)
    · have hfirst := champ_first hentry
      rw [find?_filter_eq] at hfirst
      exact hfirst

/-- Witness for C2 on concrete hits: content "A" appears with
similarities 0.4, 0.9 and 0.9 (in that order) and content "B" with an
absent similarity; the kept representative of "A" is the first 0.9 hit,
with every property of the theorem checked at it. -/
theorem dedupe_keeps_highest_similarity_first_witness :
    (dedupeByContent
        [⟨1, "A", [], some (mkRat 4 10), MatchType.semantic⟩,
         ⟨2, "A", [], some (mkRat 9 10), MatchType.keyword⟩,
         ⟨3, "A", [], some (mkRat 9 10), MatchType.variation⟩,
         ⟨4, "B", [], none, MatchType.semantic⟩]).map (fun d => d.content)
      = dedupFirst ["A", "A", "A", "B"]
    ∧ (⟨2, "A", [], some (mkRat 9 10), MatchType.keyword⟩ : ResultDoc)
        ∈ ([⟨1, "A", [], some (mkRat 4 10), MatchType.semantic⟩,
            ⟨2, "A", [], some (mkRat 9 10), MatchType.keyword⟩,
            ⟨3, "A", [], some (mkRat 9 10), MatchType.variation⟩,
            ⟨4, "B", [], none, MatchType.semantic⟩] : List ResultDoc)
    ∧ simOf ⟨1, "A", [], some (mkRat 4 10), MatchType.semantic⟩
        ≤ simOf ⟨2, "A", [], some (mkRat 9 10), MatchType.keyword⟩ := by
  have h := dedupe_keeps_highest_similarity_first
  refine ⟨?_, ?_, ?_⟩
  · have := h.1
      [⟨1, "A", [], some (mkRat 4 10), MatchType.semantic⟩,
       ⟨2, "A", [], some (mkRat 9 10), MatchType.keyword⟩,
       ⟨3, "A", [], some (mkRat 9 10), MatchType.variation⟩,
       ⟨4, "B", [], none, MatchType.semantic⟩]
    simpa using this
  · have := (h.2.2.2
      [⟨1, "A", [], some (mkRat 4 10), MatchType.semantic⟩,
       ⟨2, "A", [], some (mkRat 9 10), MatchType.keyword⟩,
       ⟨3, "A", [], some (mkRat 9 10), MatchType.variation⟩,
       ⟨4, "B", [], none, MatchType.semantic⟩]
      ⟨2, "A", [], some (mkRat 9 10), MatchType.keyword⟩ (by decide))
    exact this.1
  · have := (h.2.2.2
      [⟨1, "A", [], some (mkRat 4 10), MatchType.semantic⟩,
       ⟨2, "A", [], some (mkRat 9 10), MatchType.keyword⟩,
       ⟨3, "A", [], some (mkRat 9 10), MatchType.variation⟩,
       ⟨4, "B", [], none, MatchType.semantic⟩]
      ⟨2, "A", [], some (mkRat 9 10), MatchType.keyword⟩ (by decide))
    exact this.2.1 ⟨1, "A", [], some (mkRat 4 10), MatchType.semantic⟩
      (by decide) rfl

/-- Claim C6. The function `extractKeyTerms` is a pure function of the query (hence
deterministic); it lower-cases, strips punctuation, splits on
whitespace, discards tokens of length ≤ 2 and stop-word tokens,
deduplicates, and returns at most the first 5 remaining tokens in
original order (a sublist of the filtered token stream); on
"What is the price of the item?" it returns exactly ["price", "item"],
so it excludes "what", "is", "the", "of" and includes "price" and
"item" with no duplicates. -/
theorem extractKeyTerms_spec :
    (∀ q : String,
        (extractKeyTerms q).length ≤ 5
        ∧ (extractKeyTerms q).Nodup
        ∧ (extractKeyTerms q).Sublist (keyTermCandidates q)
        ∧ (∀ t ∈ extractKeyTerms q,
            2 < t.length ∧ stopWords.contains t = false))
    ∧ extractKeyTerms "What is the price of the item?" = ["price", "item"] := by
  constructor
  · intro q
    refine ⟨List.length_take_le 5 _,
      List.Nodup.sublist (List.take_sublist 5 _) (dedupFirst_nodup _),
      (List.take_sublist 5 _).trans (dedupFirst_sublist _), ?_⟩
    intro t ht
    have hmem : t ∈ dedupFirst (keyTermCandidates q) :=
      (List.take_sublist 5 _).mem ht
    have hcand : t ∈ keyTermCandidates q := (mem_dedupFirst_iff _).mp hmem
    have hfil := List.mem_filter.mp hcand
    have hb := hfil.2
    simp only [Bool.and_eq_true, decide_eq_true_eq, Bool.not_eq_true',
      gt_iff_lt] at hb
    exact ⟨hb.1, hb.2⟩
  · decide

/-- Witness for C6: the general properties instantiated at the concrete
query "What is the price of the item?". -/
theorem extractKeyTerms_spec_witness :
    (extractKeyTerms "What is the price of the item?").length ≤ 5
    ∧ (extractKeyTerms "What is the price of the item?").Nodup
    ∧ (2 < "price".length ∧ stopWords.contains "price" = false) := by
  have h := extractKeyTerms_spec
  have hg := h.1 "What is the price of the item?"
  refine ⟨hg.1, hg.2.1, ?_⟩
  exact hg.2.2.2 "price" (by rw [h.2]; exact List.mem_cons_self _ _)

theorem join_filter_eq {α β : Type} (p : α → Bool) (f : α → List β) (ts : List α) :
    ((ts.filter p).map f).flatten
      = (ts.map (fun t => if p t then f t else [])).flatten := by
  induction ts with
  | nil => rfl
  | cons t ts ih =>
    rw [List.filter_cons]
    by_cases hp : p t
    · simp only [if_pos hp, List.map_cons, List.flatten_cons, ih]
    · simp only [if_neg hp, List.map_cons, List.flatten_cons, ih, List.nil_append]

/-- Claim C7. The function `generateQuestionVariations` returns the concatenation of
the canned paraphrase lists of exactly the topics (pricing, product,
delivery, payment) whose trigger substrings occur in the lower-cased
query, in fixed topic-check order and fixed within-topic phrase order —
formally, it equals the filter of the topic table by trigger occurrence,
flattened; any query containing "magkano" yields "Magkano?" among the
variations; the query "Magkano po?" yields exactly the pricing topic's
fixed list (so it does not exceed that list); and a query matching no
topic keyword yields the empty sequence. -/
theorem generateQuestionVariations_spec :
    (∀ q : String,
        generateQuestionVariations q =
          ((topicTable.filter (fun t => t.1.any
              (fun k => containsSub (toLowerStr q) k))).map (fun t => t.2)).flatten)
    ∧ (∀ q : String, containsSub (toLowerStr q) "magkano" = true →
        "Magkano?" ∈ generateQuestionVariations q)
    ∧ generateQuestionVariations "Magkano po?"
        = ["What is the price?", "How much does it cost?", "Magkano?"]
    ∧ generateQuestionVariations "hello there" = [] := by
  have htab : ∀ q : String,
      generateQuestionVariations q =
        ((topicTable.filter (fun t => t.1.any
            (fun k => containsSub (toLowerStr q) k))).map (fun t => t.2)).flatten := by
    intro q
    rw [join_filter_eq, generateQuestionVariations]
    simp only [topicTable, List.map_cons, List.map_nil, List.any_cons,
      List.any_nil, Bool.or_false, Bool.or_assoc, List.flatten_cons,
      List.flatten_nil, List.append_nil, List.append_assoc]
  refine ⟨htab, ?_, by decide, by decide⟩
  intro q hq
  rw [generateQuestionVariations]
  simp only [hq, Bool.or_true, Bool.true_or, if_true]
  apply List.mem_append_left
  apply List.mem_append_left
  apply List.mem_append_left
  decide

/-- Witness for C7: the magkano-membership conjunct applied at the
concrete query "magkano ang bayad?" (which also triggers the payment
topic, so the output strictly extends the pricing list there). -/
theorem generateQuestionVariations_spec_witness :
    containsSub (toLowerStr "magkano ang bayad?") "magkano" = true
    ∧ "Magkano?" ∈ generateQuestionVariations "magkano ang bayad?"
    ∧ generateQuestionVariations "magkano ang bayad?"
        = ((topicTable.filter (fun t => t.1.any
            (fun k => containsSub (toLowerStr "magkano ang bayad?") k))).map
              (fun t => t.2)).flatten := by
  refine ⟨by decide, ?_, generateQuestionVariations_spec.1 "magkano ang bayad?"⟩
  exact generateQuestionVariations_spec.2.1 "magkano ang bayad?" (by decide)

theorem searchDocuments_of_gather_ok {env : Env} {q : String} {limit : Nat}
    {all : List ResultDoc}
    (h : (gatherResults env q limit).1 = Except.ok all) :
    searchDocuments env q limit = renderResults (rankedResults all limit) := by
  rw [searchDocuments, searchDocumentsE, h]
  rfl

theorem searchDocuments_of_gather_error {env : Env} {q : String} {limit : Nat}
    {m : String}
    (h : (gatherResults env q limit).1 = Except.error m) :
    searchDocuments env q limit = "" := by
  rw [searchDocuments, searchDocumentsE, h]
  rfl

/-- Claim C3. For every query and limit, `searchDocuments` returns a
string that is either empty or the contents of at most `limit`
deduplicated hits sorted by similarity descending (absent similarity
counts as 0), joined with a blank-line separator in rank order; when it
is empty with a positive limit, the deduplicated hit set was empty.
The concrete ranking example: hits with similarities [0.2, 0.9, 0.5]
and `limit = 2` yield the 0.9 hit's content then the 0.5 hit's content. -/
theorem search_output_ranked_bounded_join :
    (∀ (env : Env) (q : String) (limit : Nat),
      ∃ ds : List ResultDoc,
        ds.length ≤ limit
        ∧ ds.Pairwise (fun a b => simOf b ≤ simOf a)
        ∧ (∀ all, (gatherResults env q limit).1 = Except.ok all →
            ds = rankedResults all limit
            ∧ (∀ d ∈ ds, d ∈ dedupeByContent all)
            ∧ (ds = [] → dedupeByContent all = [] ∨ limit = 0))
        ∧ searchDocuments env q limit =
            (if ds.length = 0 then ""
             else String.intercalate "\n\n" (ds.map (fun d => d.content))))
    ∧ rankedResults
        [⟨1, "low", [], some (mkRat 2 10), MatchType.semantic⟩,
         ⟨2, "high", [], some (mkRat 9 10), MatchType.semantic⟩,
         ⟨3, "mid", [], some (mkRat 5 10), MatchType.keyword⟩] 2
        = [⟨2, "high", [], some (mkRat 9 10), MatchType.semantic⟩,
           ⟨3, "mid", [], some (mkRat 5 10), MatchType.keyword⟩]
    ∧ renderResults (rankedResults
        [⟨1, "low", [], some (mkRat 2 10), MatchType.semantic⟩,
         ⟨2, "high", [], some (mkRat 9 10), MatchType.semantic⟩,
         ⟨3, "mid", [], some (mkRat 5 10), MatchType.keyword⟩] 2)
        = "high\n\nmid" := by
  refine ⟨?_, by decide, by decide⟩
  intro env q limit
  rcases hg : (gatherResults env q limit).1 with m | all
  · refine ⟨[], by simp, by simp, ?_, ?_⟩
    · intro all hok
      cases hok
    · rw [searchDocuments_of_gather_error hg]
      simp
  · refine ⟨rankedResults all limit, List.length_take_le limit _,
      List.Pairwise.sublist (List.take_sublist limit _)
        (sortBySimDesc_pairwise _), ?_, ?_⟩
    · intro all' hok
      have hall : all = all' := Except.ok.inj hok
      subst hall
      refine ⟨rfl, ?_, ?_⟩
      · intro d hd
        have hs : d ∈ sortBySimDesc (dedupeByContent all) :=
          (List.take_sublist limit _).mem hd
        exact mem_sortBySimDesc.mp hs
      · intro hnil
        rcases List.take_eq_nil_iff.mp hnil with h0 | hsrt
        · exact Or.inr h0
        · refine Or.inl ?_
          have hperm := sortBySimDesc_perm (dedupeByContent all)
          exact (hperm.symm.trans (hsrt ▸ List.Perm.refl _)).eq_nil
    · rw [searchDocuments_of_gather_ok hg]
      rfl

/-- Witness for C3: the general statement instantiated at a concrete
environment whose semantic search returns three hits with similarities
0.2, 0.9, 0.5 and whose other strategies return nothing, with limit 2:
the returned string is the 0.9 content then the 0.5 content. -/
theorem search_output_ranked_bounded_join_witness :
    ∃ ds : List ResultDoc,
      ds.length ≤ 2
      ∧ ds.Pairwise (fun a b => simOf b ≤ simOf a)
      ∧ searchDocuments
          { embed := fun _ _ => Except.ok [1],
            matchDocuments := fun _ _ _ => Except.ok
              [⟨1, "low", [], some (mkRat 2 10)⟩,
               ⟨2, "high", [], some (mkRat 9 10)⟩,
               ⟨3, "mid", [], some (mkRat 5 10)⟩],
            keywordSelect := fun _ _ => Except.error "kw down",
            insertDoc := fun _ => none,
            createChunks := fun _ => [] } "zzzz" 2 =
          (if ds.length = 0 then ""
           else String.intercalate "\n\n" (ds.map (fun d => d.content))) := by
  rcases search_output_ranked_bounded_join.1
      { embed := fun _ _ => Except.ok [1],
        matchDocuments := fun _ _ _ => Except.ok
          [⟨1, "low", [], some (mkRat 2 10)⟩,
           ⟨2, "high", [], some (mkRat 9 10)⟩,
           ⟨3, "mid", [], some (mkRat 5 10)⟩],
        keywordSelect := fun _ _ => Except.error "kw down",
        insertDoc := fun _ => none,
        createChunks := fun _ => [] } "zzzz" 2
    with ⟨ds, h1, h2, _, h4⟩
  exact ⟨ds, h1, h2, h4⟩

/-- Claim C4. The function `searchDocuments` never lets a search-time failure escape as
an exception: the entire body runs under a catch, so whenever the body
throws (for any environment, i.e. any combination of embedding-service
and store failures) the caller receives the empty string, and whenever
the body succeeds the caller receives its string unchanged — in
particular an embedding-service failure on the query surfaces as "".
In the model `searchDocuments` is a total `String`-valued function, so
no exception is ever raised for any `limit : Nat`. -/
theorem search_never_raises (env : Env) (q : String) (limit : Nat) :
    (∀ m, searchDocumentsE env q limit = Except.error m →
        searchDocuments env q limit = "")
    ∧ (∀ s, searchDocumentsE env q limit = Except.ok s →
        searchDocuments env q limit = s)
    ∧ (∀ m, env.embed q EmbedMode.query = Except.error m →
        searchDocuments env q limit = "") := by
  refine ⟨?_, ?_, ?_⟩
  · intro m h
    rw [searchDocuments, h]
  · intro s h
    rw [searchDocuments, h]
  · intro m h
    apply searchDocuments_of_gather_error (m := m)
    rw [gatherResults_embed_error h]

/-- Witness for C4: an environment whose embedding provider always
fails; the search body throws, yet `searchDocuments` returns "". -/
theorem search_never_raises_witness :
    searchDocumentsE
        { embed := fun _ _ => Except.error "503",
          matchDocuments := fun _ _ _ => Except.error "down",
          keywordSelect := fun _ _ => Except.error "down",
          insertDoc := fun _ => some "down",
          createChunks := fun _ => [] } "anything" 5 = Except.error "503"
    ∧ searchDocuments
        { embed := fun _ _ => Except.error "503",
          matchDocuments := fun _ _ _ => Except.error "down",
          keywordSelect := fun _ _ => Except.error "down",
          insertDoc := fun _ => some "down",
          createChunks := fun _ => [] } "anything" 5 = "" := by
  refine ⟨rfl, ?_⟩
  exact (search_never_raises
    { embed := fun _ _ => Except.error "503",
      matchDocuments := fun _ _ _ => Except.error "down",
      keywordSelect := fun _ _ => Except.error "down",
      insertDoc := fun _ => some "down",
      createChunks := fun _ => [] } "anything" 5).1 "503" rfl

/-- Claim C10. When the chunker produces zero chunks (e.g. empty content),
`addDocument` returns `true` for every metadata argument while making no
embedding call and no store insert: the trace of outbound calls is empty,
so the vector store is untouched and success is vacuous. -/
theorem addDocument_zero_chunks (env : Env) (content : String)
    (meta : Metadata) (h : env.createChunks content = []) :
    addDocument env content meta = true ∧ addTrace env content meta = [] := by
  constructor
  · refine (addDocument_true_iff env content meta).mpr ?_
    rw [h]
    intro c hc
    cases hc
  · rw [addTrace_eq, h]
    rfl

/-- Witness for C10: a chunker returning no chunks on "", with an
environment whose embedder and store always fail — ingestion still
reports success and performs no calls. -/
theorem addDocument_zero_chunks_witness :
    addDocument
        { embed := fun _ _ => Except.error "down",
          matchDocuments := fun _ _ _ => Except.error "down",
          keywordSelect := fun _ _ => Except.error "down",
          insertDoc := fun _ => some "down",
          createChunks := fun _ => [] } "" [("categoryId", "c1")] = true
    ∧ addTrace
        { embed := fun _ _ => Except.error "down",
          matchDocuments := fun _ _ _ => Except.error "down",
          keywordSelect := fun _ _ => Except.error "down",
          insertDoc := fun _ => some "down",
          createChunks := fun _ => [] } "" [("categoryId", "c1")] = [] :=
  addDocument_zero_chunks
    { embed := fun _ _ => Except.error "down",
      matchDocuments := fun _ _ _ => Except.error "down",
      keywordSelect := fun _ _ => Except.error "down",
      insertDoc := fun _ => some "down",
      createChunks := fun _ => [] } "" [("categoryId", "c1")] rfl

/-- Claim C5. In `addDocument`: when a chunk's insert fails with an error
whose message mentions `category_id`, the pipeline retries exactly the
same insert with the attribute omitted (the trace shows the embed call,
the original insert, then the retry insert, and nothing else), and the
chunk succeeds iff the retry succeeds; any other store error, and any
embedding error, aborts the document and the call returns `false`
(the calls already made for earlier chunks stay in the trace, so chunks
inserted in earlier iterations remain persisted); and `addDocument`
returns `true` iff every chunk was stored. -/
theorem addDocument_category_fallback :
    (∀ (env : Env) (content : String) (meta : Metadata),
        addDocument env content meta = true ↔
          ∀ c ∈ env.createChunks content,
            (insertChunk env meta (categoryIdOf meta) c).1 = Except.ok ())
    ∧ (∀ (env : Env) (meta : Metadata) (catId : Option String) (c : Chunk)
          (emb : Embedding) (err : String),
        env.embed c.pageContent EmbedMode.passage = Except.ok emb →
        env.insertDoc (mkRow meta catId c emb) = some err →
        containsSub err "category_id" = true →
        ((insertChunk env meta catId c).1 = Except.ok ()
            ↔ env.insertDoc (mkRow meta none c emb) = none)
        ∧ (insertChunk env meta catId c).2 =
            [REvent.embed c.pageContent EmbedMode.passage,
             REvent.insert (mkRow meta catId c emb),
             REvent.insert (mkRow meta none c emb)])
    ∧ (∀ (env : Env) (content : String) (meta : Metadata) (c : Chunk)
          (emb : Embedding) (err : String),
        c ∈ env.createChunks content →
        env.embed c.pageContent EmbedMode.passage = Except.ok emb →
        env.insertDoc (mkRow meta (categoryIdOf meta) c emb) = some err →
        containsSub err "category_id" = false →
        addDocument env content meta = false)
    ∧ (∀ (env : Env) (content : String) (meta : Metadata) (c : Chunk)
          (m : String),
        c ∈ env.createChunks content →
        env.embed c.pageContent EmbedMode.passage = Except.error m →
        addDocument env content meta = false)
    ∧ (∀ (env : Env) (content : String) (meta : Metadata)
          (l₁ : List Chunk) (c : Chunk) (l₂ : List Chunk),
        env.createChunks content = l₁ ++ c :: l₂ →
        (∀ c' ∈ l₁,
          (insertChunk env meta (categoryIdOf meta) c').1 = Except.ok ()) →
        ∀ e ∈ (insertChunk env meta (categoryIdOf meta) c).2,
          e ∈ addTrace env content meta) := by
  refine ⟨addDocument_true_iff, ?_, ?_, ?_, ?_⟩
  · intro env meta catId c emb err hE hI hC
    rw [insertChunk_retry hE hI hC]
    constructor
    · rcases h2 : env.insertDoc (mkRow meta none c emb) with _ | err2
      · simp
      · simp
    · rfl
  · intro env content meta c emb err hc hE hI hC
    have hfail : (insertChunk env meta (categoryIdOf meta) c).1
        = Except.error err := by
      rw [insertChunk_abort hE hI hC]
    rcases hb : addDocument env content meta with _ | _
    · rfl
    · exfalso
      have := (addDocument_true_iff env content meta).mp hb c hc
      rw [hfail] at this
      cases this
  · intro env content meta c m hc hE
    have hfail : (insertChunk env meta (categoryIdOf meta) c).1
        = Except.error m := by
      rw [insertChunk, hE]
    rcases hb : addDocument env content meta with _ | _
    · rfl
    · exfalso
      have := (addDocument_true_iff env content meta).mp hb c hc
      rw [hfail] at this
      cases this
  · intro env content meta l₁ c l₂ hchunks hok e he
    rw [addTrace_eq, hchunks]
    exact addLoop_trace_mono env meta (categoryIdOf meta) l₁ c l₂ hok e he

/-- Environment for the C5 witness in which the store rejects rows
carrying `category_id` with a schema error and accepts them without. -/
def envRetry : Env :=
  { embed := fun _ _ => Except.ok [2],
    matchDocuments := fun _ _ _ => Except.ok [],
    keywordSelect := fun _ _ => Except.ok [],
    insertDoc := fun row =>
      match row.category_id with
      | some _ => some "could not find the category_id column"
      | none => none,
    createChunks := fun _ => [⟨"part one", []⟩] }

/-- Environment for the C5 witness whose store always fails with an
error unrelated to `category_id`. -/
def envDiskFull : Env :=
  { embed := fun _ _ => Except.ok [2],
    matchDocuments := fun _ _ _ => Except.ok [],
    keywordSelect := fun _ _ => Except.ok [],
    insertDoc := fun _ => some "disk full",
    createChunks := fun _ => [⟨"part one", []⟩] }

/-- Environment for the C5 witness whose embedder fails and whose
chunker produces two chunks, the second of which the store rejects. -/
def envTwoChunks : Env :=
  { embed := fun t _ =>
      if t = "part three" then Except.error "embed down" else Except.ok [2],
    matchDocuments := fun _ _ _ => Except.ok [],
    keywordSelect := fun _ _ => Except.ok [],
    insertDoc := fun row =>
      if row.content = "part two" then some "disk full" else none,
    createChunks := fun s =>
      if s = "doc3" then [⟨"part three", []⟩]
      else [⟨"part one", []⟩, ⟨"part two", []⟩] }

/-- Witness for C5: the compatibility retry succeeds on a store without
the `category_id` column (document reported stored, trace shows the
original insert then the retry without the attribute); an unrelated
store error makes `addDocument` return `false`; an embedding error makes
it return `false`; and with two chunks where the second insert fails,
the first chunk's insert call remains in the trace. -/
theorem addDocument_category_fallback_witness :
    addDocument envRetry "doc" [("categoryId", "c1")] = true
    ∧ (insertChunk envRetry [("categoryId", "c1")] (some "c1")
        ⟨"part one", []⟩).2 =
        [REvent.embed "part one" EmbedMode.passage,
         REvent.insert (mkRow [("categoryId", "c1")] (some "c1")
            ⟨"part one", []⟩ [2]),
         REvent.insert (mkRow [("categoryId", "c1")] none
            ⟨"part one", []⟩ [2])]
    ∧ addDocument envDiskFull "doc" [] = false
    ∧ addDocument envTwoChunks "doc3" [] = false
    ∧ REvent.insert (mkRow [] none ⟨"part one", []⟩ [2])
        ∈ addTrace envTwoChunks "doc" [] := by
  refine ⟨?_, ?_, ?_, ?_, ?_⟩
  · refine (addDocument_category_fallback.1 envRetry "doc"
      [("categoryId", "c1")]).mpr ?_
    intro c hc
    rcases List.mem_singleton.mp hc with rfl
    rfl
  · exact (addDocument_category_fallback.2.1 envRetry [("categoryId", "c1")]
      (some "c1") ⟨"part one", []⟩ [2] "could not find the category_id column"
      rfl rfl (by decide)).2
  · exact addDocument_category_fallback.2.2.1 envDiskFull "doc" []
      ⟨"part one", []⟩ [2] "disk full" (by decide) rfl rfl (by decide)
  · exact addDocument_category_fallback.2.2.2.1 envTwoChunks "doc3" []
      ⟨"part three", []⟩ "embed down" (by decide) rfl
  · exact addDocument_category_fallback.2.2.2.2 envTwoChunks "doc" []
      [] ⟨"part one", []⟩ [⟨"part two", []⟩] rfl
      (fun c' hc' => absurd hc' (List.not_mem_nil c'))
      (REvent.insert (mkRow [] none ⟨"part one", []⟩ [2])) (by decide)

/-- Environment for the C1 counterexample: the query "price" embeds
fine, the store answers every nearest-neighbor search with one relevant
hit, the keyword search succeeds (with no rows), but embedding any
question variation fails. -/
def envVarFail : Env :=
  { embed := fun t m =>
      if t = "price" && m == EmbedMode.query then Except.ok [1]
      else Except.error "embed down",
    matchDocuments := fun _ _ _ =>
      Except.ok [⟨7, "Item costs 100 pesos", [], some (mkRat 9 10)⟩],
    keywordSelect := fun _ _ => Except.ok [],
    insertDoc := fun _ => none,
    createChunks := fun _ => [] }

/-- The same environment with a working embedder. -/
def envVarOk : Env :=
  { envVarFail with embed := fun _ _ => Except.ok [1] }

/-- Claim C1 is false as stated: with `envVarFail` the semantic strategy
produced a hit and only the embedding call for the first question
variation of "price" failed, yet `searchDocuments` returns "" —
the variation failure removed the semantic strategy's hit from the
output instead of degrading only that variation.  With the identical
environment whose embedder works, the hit is returned, so the empty
result is attributable to the variation's embedding failure alone. -/
theorem variation_embed_failure_blocks_other_strategies :
    envVarFail.matchDocuments [1] matchThreshold 5
      = Except.ok [⟨7, "Item costs 100 pesos", [], some (mkRat 9 10)⟩]
    ∧ envVarFail.embed "price" EmbedMode.query = Except.ok [1]
    ∧ (generateQuestionVariations "price").head? = some "What is the price?"
    ∧ envVarFail.embed "What is the price?" EmbedMode.query
      = Except.error "embed down"
    ∧ searchDocuments envVarFail "price" 5 = ""
    ∧ searchDocuments envVarOk "price" 5 = "Item costs 100 pesos" := by
  refine ⟨rfl, rfl, by decide, rfl, by decide, by decide⟩

/-- Claim C1, amended. Store-level errors are isolated per strategy:
replacing any set of erroring store responses — the semantic
`match_documents` call, the keyword select, or any variation's
`match_documents` call — by empty result sets leaves the output of
`searchDocuments` unchanged, so a store failure in one strategy (or one
variation) degrades exactly that strategy (or variation) to zero
results and never blocks the hits of the others.  (An embedding-call
failure while processing a variation is NOT isolated: as the
counterexample shows, it aborts the whole search, which then returns
the empty string.) -/
theorem store_errors_isolated_per_strategy (env₁ env₂ : Env) (q : String)
    (limit : Nat)
    (hE : env₁.embed = env₂.embed)
    (hM : ∀ e th c, env₁.matchDocuments e th c = env₂.matchDocuments e th c ∨
      ((∃ m, env₁.matchDocuments e th c = Except.error m)
        ∧ env₂.matchDocuments e th c = Except.ok []))
    (hK : ∀ ts c, env₁.keywordSelect ts c = env₂.keywordSelect ts c ∨
      ((∃ m, env₁.keywordSelect ts c = Except.error m)
        ∧ env₂.keywordSelect ts c = Except.ok [])) :
    searchDocuments env₁ q limit = searchDocuments env₂ q limit := by
  rw [searchDocuments, searchDocuments, searchDocumentsE, searchDocumentsE,
    gather_value_congr hE hM hK q limit]

/-- Environment for the C1 witness whose store reports errors on every
search call. -/
def envStoreDown : Env :=
  { embed := fun _ _ => Except.ok [1],
    matchDocuments := fun _ _ _ => Except.error "rpc down",
    keywordSelect := fun _ _ => Except.error "select down",
    insertDoc := fun _ => none,
    createChunks := fun _ => [] }

/-- The same environment with a store that answers every search with an
empty result set. -/
def envStoreEmpty : Env :=
  { envStoreDown with
    matchDocuments := fun _ _ _ => Except.ok [],
    keywordSelect := fun _ _ => Except.ok [] }

/-- Witness for the amended C1: a store whose every search call errors
produces exactly the same output as a store that returns empty result
sets — the errors degraded to zero results per strategy. -/
theorem store_errors_isolated_per_strategy_witness :
    searchDocuments envStoreDown "price" 5
      = searchDocuments envStoreEmpty "price" 5 :=
  store_errors_isolated_per_strategy envStoreDown envStoreEmpty "price" 5
    rfl
    (fun _ _ _ => Or.inr ⟨⟨"rpc down", rfl⟩, rfl⟩)
    (fun _ _ => Or.inr ⟨⟨"select down", rfl⟩, rfl⟩)

theorem searchTrace_mem_cases {env : Env} {q : String} {limit : Nat}
    {e : REvent} (h : e ∈ searchTrace env q limit) :
    e = REvent.embed q EmbedMode.query
    ∨ (∃ qe, env.embed q EmbedMode.query = Except.ok qe
        ∧ e = REvent.matchCall qe matchThreshold limit)
    ∨ e = REvent.kwCall (extractKeyTerms q) limit
    ∨ e ∈ (varLoop env ((generateQuestionVariations q).take 2)).2 := by
  rcases hemb : env.embed q EmbedMode.query with m | qe
  · rw [searchTrace, gatherResults_embed_error hemb] at h
    dsimp only at h
    simp only [List.mem_singleton] at h
    exact Or.inl h
  · rw [searchTrace, gatherResults_embed_ok hemb] at h
    dsimp only at h
    rcases List.mem_append.mp h with h | h
    · rcases List.mem_append.mp h with h | h
      · rcases List.mem_cons.mp h with rfl | h
        · exact Or.inl rfl
        · rcases List.mem_cons.mp h with rfl | h
          · exact Or.inr (Or.inl ⟨qe, rfl, rfl⟩)
          · cases h
      · by_cases hkt : (extractKeyTerms q).length > 0
        · rw [if_pos hkt] at h
          rcases List.mem_cons.mp h with rfl | h
          · exact Or.inr (Or.inr (Or.inl rfl))
          · cases h
        · rw [if_neg hkt] at h
          cases h
    · exact Or.inr (Or.inr (Or.inr h))

theorem gather_ok_decomp {env : Env} {q : String} {limit : Nat}
    {all : List ResultDoc}
    (h : (gatherResults env q limit).1 = Except.ok all) :
    ∃ (qe : Embedding) (qa : List ResultDoc),
      env.embed q EmbedMode.query = Except.ok qe
      ∧ (varLoop env ((generateQuestionVariations q).take 2)).1 = Except.ok qa
      ∧ all = semanticHits env qe limit ++ keywordHits env q limit ++ qa := by
  rcases hemb : env.embed q EmbedMode.query with m | qe
  · rw [gatherResults_embed_error hemb] at h
    cases h
  · rw [gatherResults_embed_ok hemb] at h
    dsimp only at h
    rcases hv : (varLoop env ((generateQuestionVariations q).take 2)).1
      with m | qa
    · rw [hv] at h
      cases h
    · rw [hv] at h
      have h' : Except.ok (semanticHits env qe limit
          ++ keywordHits env q limit ++ qa) = Except.ok all := h
      exact ⟨qe, qa, rfl, rfl, (Except.ok.inj h').symm⟩

theorem semanticHits_tag (env : Env) (qe : Embedding) (limit : Nat) :
    ∀ d ∈ semanticHits env qe limit, d.matchType = MatchType.semantic := by
  intro d hd
  rw [semanticHits] at hd
  rcases hm : env.matchDocuments qe matchThreshold limit with m | rs <;>
    rw [hm] at hd
  · cases hd
  · rcases List.mem_map.mp hd with ⟨h0, _, rfl⟩
    rfl

theorem keywordHits_tag (env : Env) (q : String) (limit : Nat) :
    ∀ d ∈ keywordHits env q limit,
      d.matchType = MatchType.keyword ∧ d.similarity = some keywordSim := by
  intro d hd
  rw [keywordHits] at hd
  by_cases hkt : (extractKeyTerms q).length > 0
  · rw [if_pos hkt] at hd
    rcases hm : env.keywordSelect (extractKeyTerms q) limit with m | rs <;>
      rw [hm] at hd
    · cases hd
    · rcases List.mem_map.mp hd with ⟨h0, _, rfl⟩
      exact ⟨rfl, rfl⟩
  · rw [if_neg hkt] at hd
    cases hd

theorem varLoop_value_tag {env : Env} {vs : List String}
    {qa : List ResultDoc}
    (h : (varLoop env vs).1 = Except.ok qa) :
    ∀ d ∈ qa, d.matchType = MatchType.variation := by
  induction vs generalizing qa with
  | nil =>
    have h' : Except.ok ([] : List ResultDoc) = Except.ok qa := h
    rw [← Except.ok.inj h']
    intro d hd
    cases hd
  | cons v rest ih =>
    rw [varLoop] at h
    rcases hemb : env.embed v EmbedMode.query with m | emb <;> rw [hemb] at h
    · cases h
    · dsimp only at h
      rcases hmd : env.matchDocuments emb matchThreshold 3 with m | rs <;>
        rw [hmd] at h <;> dsimp only at h
      · exact ih h
      · rcases hv : (varLoop env rest).1 with m | qa' <;> rw [hv] at h
        · cases h
        · have h' : Except.ok (rs.map tagVariation ++ qa') = Except.ok qa := h
          rw [← Except.ok.inj h']
          intro d hd
          rcases List.mem_append.mp hd with hd | hd
          · rcases List.mem_map.mp hd with ⟨h0, _, rfl⟩
            rfl
          · exact ih hv d hd

theorem varLoop_trace_no_kwCall {env : Env} {vs : List String}
    {ts : List String} {n : Nat}
    (h : REvent.kwCall ts n ∈ (varLoop env vs).2) : False := by
  induction vs with
  | nil => cases h
  | cons v rest ih =>
    rw [varLoop] at h
    rcases hemb : env.embed v EmbedMode.query with m | emb <;> rw [hemb] at h
    · rcases List.mem_singleton.mp h with h2
      cases h2
    · dsimp only at h
      rcases hmd : env.matchDocuments emb matchThreshold 3 with m | rs <;>
        rw [hmd] at h <;> dsimp only at h <;>
        rcases List.mem_append.mp h with h2 | h2
      · rcases List.mem_cons.mp h2 with h3 | h3
        · cases h3
        · rcases List.mem_cons.mp h3 with h4 | h4 <;> cases h4
      · exact ih h2
      · rcases List.mem_cons.mp h2 with h3 | h3
        · cases h3
        · rcases List.mem_cons.mp h3 with h4 | h4 <;> cases h4
      · exact ih h2

/-- Claim C8. The fixed retrieval constants are passed through
unmodified: every `match_documents` call in a search (semantic or
variation) carries the similarity threshold 0.30; variation
`match_documents` calls carry result cap 3 (and every `match_documents`
call carries either the caller's `limit` or 3); only the original query
and at most the first 2 question variations are ever embedded, always in
query mode; the keyword search is issued with exactly the extracted key
terms and cap `limit`; at most 3 `match_documents` calls happen per
search (1 semantic + at most 2 variations); the semantic search with
threshold 0.30 and cap `limit` is issued whenever the query embedding
succeeds; and every keyword-tagged hit in the gathered results carries
the fixed similarity 0.5. -/
theorem retrieval_constants_passed_through :
    matchThreshold = mkRat 3 10
    ∧ keywordSim = mkRat 1 2
    ∧ (∀ (env : Env) (q : String) (limit : Nat) (e : Embedding)
          (th : ℚ) (n : Nat),
        REvent.matchCall e th n ∈ searchTrace env q limit →
        th = matchThreshold ∧ (n = limit ∨ n = 3))
    ∧ (∀ (env : Env) (vs : List String) (e : Embedding) (th : ℚ) (n : Nat),
        REvent.matchCall e th n ∈ (varLoop env vs).2 →
        th = matchThreshold ∧ n = 3)
    ∧ (∀ (env : Env) (q : String) (limit : Nat) (t : String) (m : EmbedMode),
        REvent.embed t m ∈ searchTrace env q limit →
        m = EmbedMode.query ∧ (t = q ∨ t ∈ (generateQuestionVariations q).take 2))
    ∧ (∀ (env : Env) (q : String) (limit : Nat) (ts : List String) (n : Nat),
        REvent.kwCall ts n ∈ searchTrace env q limit →
        ts = extractKeyTerms q ∧ n = limit)
    ∧ (∀ (env : Env) (q : String) (limit : Nat),
        (searchTrace env q limit).countP isMatchCall ≤ 3)
    ∧ (∀ (env : Env) (q : String) (limit : Nat) (qe : Embedding),
        env.embed q EmbedMode.query = Except.ok qe →
        REvent.matchCall qe matchThreshold limit ∈ searchTrace env q limit)
    ∧ (∀ (env : Env) (q : String) (limit : Nat) (all : List ResultDoc),
        (gatherResults env q limit).1 = Except.ok all →
        ∀ d ∈ all, d.matchType = MatchType.keyword →
          d.similarity = some keywordSim) := by
  refine ⟨rfl, rfl, ?_, fun env vs e th n h => varLoop_trace_matchCall h,
    ?_, ?_, ?_, ?_, ?_⟩
  · intro env q limit e th n h
    rcases searchTrace_mem_cases h with h | ⟨qe, hqe, h⟩ | h | h
    · cases h
    · have := (REvent.matchCall.injEq _ _ _ _ _ _).mp h
      exact ⟨this.2.1, Or.inl this.2.2⟩
    · cases h
    · rcases varLoop_trace_matchCall h with ⟨h1, h2⟩
      exact ⟨h1, Or.inr h2⟩
  · intro env q limit t m h
    rcases searchTrace_mem_cases h with h | ⟨qe, hqe, h⟩ | h | h
    · have := (REvent.embed.injEq _ _ _ _).mp h
      exact ⟨this.2, Or.inl this.1⟩
    · cases h
    · cases h
    · rcases varLoop_trace_embed h with ⟨h1, h2⟩
      exact ⟨h1, Or.inr h2⟩
  · intro env q limit ts n h
    rcases searchTrace_mem_cases h with h | ⟨qe, hqe, h⟩ | h | h
    · cases h
    · cases h
    · have := (REvent.kwCall.injEq _ _ _ _).mp h
      exact ⟨this.1, this.2⟩
    · exact absurd h (fun hm => varLoop_trace_no_kwCall hm)
  · intro env q limit
    rcases hemb : env.embed q EmbedMode.query with m | qe
    · rw [searchTrace, gatherResults_embed_error hemb]
      dsimp only
      have h0 : ([REvent.embed q EmbedMode.query] : List REvent).countP
          isMatchCall = 0 := rfl
      omega
    · rw [searchTrace, gatherResults_embed_ok hemb]
      dsimp only
      rw [List.countP_append, List.countP_append]
      have h1 : ([REvent.embed q EmbedMode.query,
          REvent.matchCall qe matchThreshold limit] : List REvent).countP
            isMatchCall = 1 := rfl
      have h2 : ((if (extractKeyTerms q).length > 0
          then [REvent.kwCall (extractKeyTerms q) limit]
          else []) : List REvent).countP isMatchCall = 0 := by
        split <;> rfl
      have h3 := varLoop_trace_matchCall_count env
        ((generateQuestionVariations q).take 2)
      have h4 : ((generateQuestionVariations q).take 2).length ≤ 2 :=
        List.length_take_le 2 _
      omega
  · intro env q limit qe hqe
    rw [searchTrace, gatherResults_embed_ok hqe]
    dsimp only
    apply List.mem_append_left
    apply List.mem_append_left
    exact List.mem_cons_of_mem _ (List.mem_singleton.mpr rfl)
  · intro env q limit all hok d hd htype
    rcases gather_ok_decomp hok with ⟨qe, qa, hqe, hqa, rfl⟩
    rcases List.mem_append.mp hd with hd | hd
    · rcases List.mem_append.mp hd with hd | hd
      · rw [semanticHits_tag env qe limit d hd] at htype
        cases htype
      · exact (keywordHits_tag env q limit d hd).2
    · rw [varLoop_value_tag hqa d hd] at htype
      cases htype

/-- Environment for the C8 witness: every embedding is `[3]`, every
nearest-neighbor search returns one hit, the keyword search returns one
row. -/
def envConst : Env :=
  { embed := fun _ _ => Except.ok [3],
    matchDocuments := fun _ _ _ =>
      Except.ok [⟨1, "GCash info", [], some (mkRat 8 10)⟩],
    keywordSelect := fun _ _ => Except.ok [⟨2, "GCash info", []⟩],
    insertDoc := fun _ => none,
    createChunks := fun _ => [] }

/-- Witness for C8 at `envConst` and query "price": a variation
`match_documents` call in the trace carries threshold 0.30 and cap 3; a
variation embedding in the trace is in query mode and among the first 2
variations; the keyword call carries the extracted key terms and the
limit; at most 3 match calls happen; the semantic call with cap 5 is in
the trace; and the keyword-tagged hit of the gathered results carries
similarity 0.5. -/
theorem retrieval_constants_passed_through_witness :
    (matchThreshold = mkRat 3 10 ∧ (3 = 5 ∨ (3 : Nat) = 3))
    ∧ (EmbedMode.query = EmbedMode.query
        ∧ ("How much does it cost?" = "price"
            ∨ "How much does it cost?"
              ∈ (generateQuestionVariations "price").take 2))
    ∧ (["price"] = extractKeyTerms "price" ∧ (5 : Nat) = 5)
    ∧ (searchTrace envConst "price" 5).countP isMatchCall ≤ 3
    ∧ REvent.matchCall [3] matchThreshold 5 ∈ searchTrace envConst "price" 5
    ∧ (⟨2, "GCash info", [], some (mkRat 1 2), MatchType.keyword⟩ : ResultDoc).similarity
        = some keywordSim := by
  refine ⟨?_, ?_, ?_, ?_, ?_, ?_⟩
  · have := retrieval_constants_passed_through.2.2.1 envConst "price" 5
      [3] matchThreshold 3 (by decide)
    exact ⟨retrieval_constants_passed_through.1, this.2⟩
  · exact retrieval_constants_passed_through.2.2.2.2.1 envConst "price" 5
      "How much does it cost?" EmbedMode.query (by decide)
  · exact retrieval_constants_passed_through.2.2.2.2.2.1 envConst "price" 5
      ["price"] 5 (by decide)
  · exact retrieval_constants_passed_through.2.2.2.2.2.2.1 envConst "price" 5
  · exact retrieval_constants_passed_through.2.2.2.2.2.2.2.1 envConst "price" 5
      [3] rfl
  · exact retrieval_constants_passed_through.2.2.2.2.2.2.2.2 envConst "price" 5
      [⟨1, "GCash info", [], some (mkRat 8 10), MatchType.semantic⟩,
       ⟨2, "GCash info", [], some (mkRat 1 2), MatchType.keyword⟩,
       ⟨1, "GCash info", [], some (mkRat 8 10), MatchType.variation⟩,
       ⟨1, "GCash info", [], some (mkRat 8 10), MatchType.variation⟩]
      rfl
      ⟨2, "GCash info", [], some (mkRat 1 2), MatchType.keyword⟩
      (by decide) rfl

/-- Claim C9. The merge sequence of `searchDocuments` is always built in
the fixed strategy order semantic ++ keyword ++ variation; consequently,
when a semantic hit shares its content with keyword/variation hits and
no hit of that content has strictly higher similarity (e.g. an
equal-similarity tie), the dedupe's "first encountered is kept"
tie-break retains a hit from the semantic segment as the
representative. -/
theorem merge_order_semantic_first :
    (∀ (env : Env) (q : String) (limit : Nat) (all : List ResultDoc),
        (gatherResults env q limit).1 = Except.ok all →
        ∃ sems kws vars : List ResultDoc,
          all = sems ++ kws ++ vars
          ∧ (∀ d ∈ sems, d.matchType = MatchType.semantic)
          ∧ (∀ d ∈ kws, d.matchType = MatchType.keyword)
          ∧ (∀ d ∈ vars, d.matchType = MatchType.variation))
    ∧ (∀ (sems rest : List ResultDoc) (s : ResultDoc),
        (∀ d ∈ sems, d.matchType = MatchType.semantic) →
        s ∈ sems →
        (∀ x ∈ sems ++ rest, x.content = s.content → simOf x ≤ simOf s) →
        ∃ d, entryFor (dedupeByContent (sems ++ rest)) s.content = some d
          ∧ d ∈ sems ∧ d.matchType = MatchType.semantic) := by
  constructor
  · intro env q limit all hok
    rcases gather_ok_decomp hok with ⟨qe, qa, hqe, hqa, rfl⟩
    exact ⟨semanticHits env qe limit, keywordHits env q limit, qa, rfl,
      semanticHits_tag env qe limit,
      fun d hd => (keywordHits_tag env q limit d hd).1,
      varLoop_value_tag hqa⟩
  · intro sems rest s htag hs hmax
    have hsL : s ∈ sems ++ rest := List.mem_append_left rest hs
    have hsf : s ∈ (sems ++ rest).filter (fun x => x.content == s.content) :=
      List.mem_filter.mpr ⟨hsL, by simp⟩
    rcases hfe : (sems ++ rest).filter (fun x => x.content == s.content)
      with _ | ⟨hd0, tl⟩
    · rw [hfe] at hsf
      cases hsf
    · have hch : champ ((sems ++ rest).filter
          (fun x => x.content == s.content)) = some (champAux hd0 tl) := by
        rw [hfe]
        rfl
      have hentry : entryFor (dedupeByContent (sems ++ rest)) s.content
          = some (champAux hd0 tl) := by
        rw [entryFor_dedupeByContent]
        exact hch
      have hdmem := champ_some_mem hch
      have hdfil := List.mem_filter.mp hdmem
      have hdc : (champAux hd0 tl).content = s.content :=
        beq_iff_eq.mp hdfil.2
      have hds : simOf (champAux hd0 tl) ≤ simOf s :=
        hmax (champAux hd0 tl) hdfil.1 hdc
      have hfind := champ_first hch
      rw [find?_filter_eq, find?_append_eq] at hfind
      rcases hfs : sems.find? (fun x => (x.content == s.content)
          && decide (simOf (champAux hd0 tl) ≤ simOf x)) with _ | a
      · exfalso
        rw [List.find?_eq_none] at hfs
        have := hfs s hs
        simp [hds] at this
      · rw [hfs] at hfind
        have had : a = champAux hd0 tl := Option.some.inj hfind
        have hmem : champAux hd0 tl ∈ sems :=
          had ▸ List.mem_of_find?_eq_some hfs
        exact ⟨champAux hd0 tl, hentry, hmem, htag _ hmem⟩

/-- Witness for C9: a semantic hit and a keyword hit share content "X"
with the equal similarity 0.5; the kept representative for "X" is in
the (singleton) semantic segment and is tagged semantic. -/
theorem merge_order_semantic_first_witness :
    ∃ d, entryFor (dedupeByContent
        ([⟨1, "X", [], some (mkRat 1 2), MatchType.semantic⟩]
          ++ [⟨2, "X", [], some (mkRat 1 2), MatchType.keyword⟩])) "X"
        = some d
      ∧ d ∈ [(⟨1, "X", [], some (mkRat 1 2), MatchType.semantic⟩ : ResultDoc)]
      ∧ d.matchType = MatchType.semantic := by
  have := merge_order_semantic_first.2
    [⟨1, "X", [], some (mkRat 1 2), MatchType.semantic⟩]
    [⟨2, "X", [], some (mkRat 1 2), MatchType.keyword⟩]
    ⟨1, "X", [], some (mkRat 1 2), MatchType.semantic⟩
    (by decide) (by decide) (by decide)
  exact this
